import Mathlib

/-!
Verification of the chained-buffer byte stream (`velox/common/memory/ByteStream.h`).

The C++ code is embedded shallowly:
* machine memory is a `List Nat` of bytes (each byte `< 256`);
* `int32_t` / `size_t` quantities are `Nat` (all quantities of interest are
  non-negative; `x - y` mirrors the C++ subtraction on the in-range states the
  theorems quantify over);
* a multi-byte primitive value of width `w` is a `Nat < 256 ^ w`, stored in
  little-endian machine byte order (the wire format of the code);
* `throw` / `VELOX_CHECK` / `VELOX_DCHECK` are modelled with `Except Failure`:
  an operation that returns `.error e` leaves the stream exactly as it was
  (the C++ code raises before mutating in those places, except where a
  function explicitly returns its partially-mutated state, as `readBytes`
  does below);
* loops (`for (;;)`) are translated to structurally recursive functions with
  an explicit iteration budget (`fuel`) that is provably never exhausted on
  the states the theorems quantify over.

Collaborators that the header consumes but whose sources are not part of the
repository slice (`StreamArena`, `bits::*`, `MappedMemory::kPageSize`,
`folly::StringPiece`) are modelled from the specification's description of
their narrow interfaces; each such definition carries a doc comment saying so.
-/

set_option maxHeartbeats 1600000

deriving instance DecidableEq for Except

namespace Velox

/-- Failure modes of stream operations: `endOfStream` models
`throw std::runtime_error("Reading past end of ByteStream")`;
`checkFailure` models a `VELOX_CHECK` / `VELOX_DCHECK` programming-error
check firing (fatal, distinct from the recoverable end-of-stream error). -/
inductive Failure where
  | endOfStream
  | checkFailure
deriving DecidableEq

/-- `ByteRange`: one contiguous memory block plus a cursor.
`buffer` is the backing memory (a list of bytes), `size` its capacity in
bytes, `position` the cursor (in bytes, or in bits for a bit-addressed
stream). -/
structure ByteRange where
  buffer : List Nat
  size : Nat
  position : Nat
deriving DecidableEq

/-- Default range used to model an (undefined-behaviour) dereference of an
out-of-bounds `current_` pointer; theorems only quantify over states where
`current` is a valid index, so this default is never reached there. -/
def dfltRange : ByteRange := ⟨[], 0, 0⟩

/-- `ByteRange::available<T>()`: `(size - position) / sizeof(T)`. -/
def ByteRange.available (r : ByteRange) (w : Nat) : Nat :=
  (r.size - r.position) / w

/-- `ByteRange::available<bool>()` specialization: `size * 8 - position`
(`size` counts bytes, `position` counts bits on a bit-addressed stream). -/
def ByteRange.availableBits (r : ByteRange) : Nat :=
  r.size * 8 - r.position

/-- The logical bytes of a range viewed as input: the first `size` bytes of
its backing buffer. -/
def ByteRange.contents (r : ByteRange) : List Nat := r.buffer.take r.size

/-- The bytes written so far into an output range: the first `position`
bytes of its backing buffer. -/
def ByteRange.written (r : ByteRange) : List Nat := r.buffer.take r.position

/-- `ByteStream`: an ordered sequence of ranges plus the index of the
current one.  The C++ `current_` is a pointer into `ranges_`; it is modelled
as an index.  The arena pointer is modelled implicitly by `extend` below. -/
structure ByteStream where
  ranges : List ByteRange
  current : Nat
  isBits : Bool
  isReverseBitOrder : Bool
  isReversed : Bool
deriving DecidableEq

/-- The input-mode constructor `ByteStream()`. -/
def inputStream : ByteStream :=
  { ranges := [], current := 0, isBits := false, isReverseBitOrder := false,
    isReversed := false }

/-- The output-mode constructor `ByteStream(arena, isBits, isReverseBitOrder)`. -/
def outputStream (isBits : Bool := false) (isReverseBitOrder : Bool := false) :
    ByteStream :=
  { ranges := [], current := 0, isBits := isBits,
    isReverseBitOrder := isReverseBitOrder, isReversed := false }

/-- The range `current_` points to (`*current_`). -/
def ByteStream.cur (s : ByteStream) : ByteRange :=
  s.ranges.getD s.current dfltRange

/-- Replace the `position` field of range `i` (the C++
`ranges_[i].position = p`, a store through a pointer into `ranges_`). -/
def ByteStream.setPos (s : ByteStream) (i p : Nat) : ByteStream :=
  { s with ranges := s.ranges.set i { s.ranges.getD i dfltRange with position := p } }

/-- Replace range `i` wholesale. -/
def ByteStream.setRangeAt (s : ByteStream) (i : Nat) (r : ByteRange) : ByteStream :=
  { s with ranges := s.ranges.set i r }

/-- `ByteStream::resetInput(ranges)`: replace the range sequence, point
`current_` at the first range. -/
def ByteStream.resetInput (s : ByteStream) (ranges : List ByteRange) : ByteStream :=
  { s with ranges := ranges, current := 0 }

/-- `ByteStream::size()`: the sum of `position` over all ranges. -/
def ByteStream.size (s : ByteStream) : Nat :=
  s.ranges.foldl (fun total r => total + r.position) 0

/-- `ByteStream::tellp()`: the pair (current range identity, its position).
The C++ `Position` is `std::tuple<ByteRange*, int32_t>`: it carries a raw
pointer into the vector `ranges_`.  The range identity is modelled here as
the index of the range in `ranges_`.  An index stays meaningful across
`ranges_.emplace_back()` where the raw pointer need not: `extend` may
reallocate the vector and leave a saved pointer dangling.  The model is
therefore faithful to a saved `Position` only between a save and a restore
with no intervening `extend`; theorems that restore a saved position
restrict themselves to that case. -/
def ByteStream.tellp (s : ByteStream) : Nat × Nat :=
  (s.current, s.cur.position)

/-- `ByteStream::seekp(position)`: restore `current_` and its `position`.
The C++ writes `current_->position` through the `ByteRange*` stored in the
`Position`; if an `extend` (hence `ranges_.emplace_back()`) intervened since
the matching `tellp`, a vector reallocation may have left that pointer
dangling — a memory-level failure mode this index-based model cannot
exhibit.  Theorems about restoring a saved position therefore carry a
hypothesis ruling out intervening extensions, the scenarios in which the
pointer provably stays valid and the index model coincides with the
source. -/
def ByteStream.seekp (s : ByteStream) (p : Nat × Nat) : ByteStream :=
  { s.setPos p.1 p.2 with current := p.1 }

/-- `ByteStream::seek(range, position)`. -/
def ByteStream.seek (s : ByteStream) (range position : Nat) : ByteStream :=
  { s.setPos range position with current := range }

/-- `ByteStream::atEnd()`: false while the current range has unread bytes;
otherwise true iff the current range is the last one.  The
`VELOX_CHECK(position >= 0 && position < ranges_.size())` is modelled as a
`checkFailure`. -/
def ByteStream.atEnd (s : ByteStream) : Except Failure Bool :=
  if s.cur.position < s.cur.size then
    .ok false
  else if s.current < s.ranges.length then
    .ok (decide (s.current = s.ranges.length - 1))
  else
    .error .checkFailure

/-- `ByteStream::next(throwIfPastEnd)`: advance `current_` to the next range
and reset that range's position to 0; at the last range, either raise
end-of-stream or be a no-op.  An `.error` result models a raise before any
mutation, so the stream is unchanged in that case. -/
def ByteStream.next (s : ByteStream) (throwIfPastEnd : Bool := true) :
    Except Failure ByteStream :=
  if s.current < s.ranges.length then
    if s.current = s.ranges.length - 1 then
      if throwIfPastEnd then .error .endOfStream else .ok s
    else
      .ok { s.setPos (s.current + 1) 0 with current := s.current + 1 }
  else
    .error .checkFailure

/-- One step of `ByteStream::readByte()` unrolled with an iteration budget:
return the byte under the cursor, else advance to the next range and retry.
The budget is spent only when a range is exhausted, and `readByte` below
supplies more budget than there are ranges, so it never runs out. -/
def ByteStream.readByteGo : Nat → ByteStream → Except Failure (Nat × ByteStream)
  | 0, _ => .error .checkFailure
  | fuel + 1, s =>
    if s.cur.position < s.cur.size then
      .ok (s.cur.buffer.getD s.cur.position 0, s.setPos s.current (s.cur.position + 1))
    else
      match s.next true with
      | .error e => .error e
      | .ok s1 => ByteStream.readByteGo fuel s1

/-- `ByteStream::readByte()`. -/
def ByteStream.readByte (s : ByteStream) : Except Failure (Nat × ByteStream) :=
  ByteStream.readByteGo (s.ranges.length + 1) s

/-- Little-endian decoding of a byte list (what
`*reinterpret_cast<const T*>(bytes)` yields on the little-endian machines the
wire format targets). -/
def decLE : List Nat → Nat
  | [] => 0
  | b :: bs => b + 256 * decLE bs

/-- Little-endian encoding of a value into `w` bytes (the memory image of a
`w`-byte primitive store). -/
def enc : Nat → Nat → List Nat
  | 0, _ => []
  | w + 1, v => (v % 256) :: enc w (v / 256)

/-- The slow-path loop of `ByteStream::read<T>()`:
`for (i = 0; i < sizeof(T); ++i) value |= readByte() << (i * 8)`.
`k` counts the iterations left, `i` the current index, `value` the scratch
word being assembled. -/
def ByteStream.readSlowGo : Nat → Nat → Nat → ByteStream →
    Except Failure (Nat × ByteStream)
  | 0, _, value, s => .ok (value, s)
  | k + 1, i, value, s =>
    match s.readByte with
    | .error e => .error e
    | .ok (b, s1) => ByteStream.readSlowGo k (i + 1) (value ||| (b <<< (i * 8))) s1

/-- `ByteStream::read<T>()` for a primitive of width `w = sizeof(T)` bytes:
fast path when the value lies inside the current range, otherwise byte-wise
little-endian reconstruction across ranges. -/
def ByteStream.read (s : ByteStream) (w : Nat) : Except Failure (Nat × ByteStream) :=
  if s.cur.position + w ≤ s.cur.size then
    .ok (decLE ((s.cur.buffer.drop s.cur.position).take w),
      s.setPos s.current (s.cur.position + w))
  else
    s.readSlowGo w 0 0

/-- Read `n` consecutive values of width `w` with `read<T>` (the read side of
the round-trip property). -/
def ByteStream.readAll (s : ByteStream) (w : Nat) : Nat →
    Except Failure (List Nat × ByteStream)
  | 0 => .ok ([], s)
  | n + 1 =>
    match s.read w with
    | .error e => .error e
    | .ok (v, s1) =>
      match s1.readAll w n with
      | .error e => .error e
      | .ok (vs, s2) => .ok (v :: vs, s2)

/-- The loop of `ByteStream::readBytes(bytes, size)` with an iteration
budget.  It returns the bytes copied into the destination so far, the
(possibly partially mutated) stream, and the failure raised by `next()` if
the ranges were exhausted before `size` bytes were copied: the C++ code
copies and advances before `next()` can throw, so on failure both the
destination and the stream keep the partial mutation. -/
def ByteStream.readBytesGo : Nat → ByteStream → Nat → List Nat →
    List Nat × ByteStream × Option Failure
  | 0, s, _, acc => (acc, s, some .checkFailure)
  | fuel + 1, s, size, acc =>
    let available := s.cur.size - s.cur.position
    let numUsed := min available size
    let acc2 := acc ++ (s.cur.buffer.drop s.cur.position).take numUsed
    let s2 := s.setPos s.current (s.cur.position + numUsed)
    if size - numUsed = 0 then (acc2, s2, none)
    else
      match s2.next true with
      | .error e => (acc2, s2, some e)
      | .ok s3 => ByteStream.readBytesGo fuel s3 (size - numUsed) acc2

/-- `ByteStream::readBytes(bytes, size)`. -/
def ByteStream.readBytes (s : ByteStream) (size : Nat) :
    List Nat × ByteStream × Option Failure :=
  ByteStream.readBytesGo (s.ranges.length + 1) s size []

/-- The tail of `ByteStream::nextView(size)` after the possible advance:
`VELOX_CHECK(current_->size)`, then hand out a view of
`min(size - position, k)` bytes of the current range and advance the
cursor past them. -/
def ByteStream.nextViewTail (s : ByteStream) (k : Nat) :
    Except Failure (List Nat × ByteStream) :=
  if s.cur.size = 0 then .error .checkFailure
  else
    let viewSize := min (s.cur.size - s.cur.position) k
    .ok ((s.cur.buffer.drop s.cur.position).take viewSize,
      s.setPos s.current (s.cur.position + viewSize))

/-- `ByteStream::nextView(size)`: if the current range is exhausted, either
return the empty view (when it is the last range) or advance once; then
return a view over the current range. -/
def ByteStream.nextView (s : ByteStream) (k : Nat) :
    Except Failure (List Nat × ByteStream) :=
  if s.cur.position = s.cur.size then
    if s.current = s.ranges.length - 1 then .ok ([], s)
    else
      match s.next true with
      | .error e => .error e
      | .ok s1 => s1.nextViewTail k
  else
    s.nextViewTail k

/-- Modelled from the spec: `MappedMemory::kPageSize`, the allocator's page
granularity (`velox/common/memory/MappedMemory.h` is not part of the
repository slice).  The standard page size, 4096 bytes. -/
def kPageSize : Nat := 4096

/-- Modelled from the spec: `bits::roundUp(value, factor)` from the
bit-utility collaborator — round `value` up to a multiple of `factor`. -/
def roundUp (value factor : Nat) : Nat :=
  ((value + factor - 1) / factor) * factor

/-- Modelled from the spec: `bits::nbytes(bits)` from the bit-utility
collaborator — round a bit count up to a byte count. -/
def nbytes (bits : Nat) : Nat := (bits + 7) / 8

/-- Modelled from the spec: set bit `j` of one byte. -/
def setBitByte (b j : Nat) (v : Bool) : Nat :=
  if v then b ||| (1 <<< j) else b &&& (255 ^^^ (1 <<< j))

/-- Modelled from the spec: `bits::setBit(buffer, i, value)` from the
bit-utility collaborator — set bit `i` (little-endian bit order within each
byte) of the buffer. -/
def setBit (buf : List Nat) (i : Nat) (v : Bool) : List Nat :=
  buf.set (i / 8) (setBitByte (buf.getD (i / 8) 0) (i % 8) v)

/-- Modelled from the spec: `bits::fillBits(buffer, begin, end, value)` from
the bit-utility collaborator — fill bits `[begin, end)` with `value`. -/
def fillBits (buf : List Nat) (a b : Nat) (v : Bool) : List Nat :=
  (List.range (b - a)).foldl (fun bf k => setBit bf (a + k) v) buf

/-- Overwrite `buf[pos .. pos + data.length)` with `data` (the memory model
of `memcpy(buf + pos, data, data.length)`; a store past the end of `buf` is
dropped, and the theorems only quantify over in-bounds stores). -/
def writeBytesAt : List Nat → Nat → List Nat → List Nat
  | buf, _, [] => buf
  | buf, pos, d :: ds => writeBytesAt (buf.set pos d) (pos + 1) ds

/-- The element-copy loop of the `append<T>` fast path
(`while (target != end) *target = *valuePtr; ...`): store each value's
`w`-byte little-endian image at consecutive offsets. -/
def storeValues : List Nat → Nat → Nat → List Nat → List Nat
  | buf, _, _, [] => buf
  | buf, pos, w, v :: vs => storeValues (writeBytesAt buf pos (enc w v)) (pos + w) w vs

/-- `ByteStream::extend(bytes)`: append a new range obtained from the arena
and point `current_` at it.  Modelled from the spec:
`StreamArena::newRange(bytes, range)` (`StreamArena.h` is not part of the
repository slice) fills the range with a zero-initialized buffer of the
requested capacity, `size = bytes`, `position = 0`. -/
def ByteStream.extend (s : ByteStream) (bytes : Nat) : ByteStream :=
  { s with
    ranges := s.ranges ++ [⟨List.replicate bytes 0, bytes, 0⟩],
    current := s.ranges.length }

/-- `ByteStream::startWrite(initialSize)`. -/
def ByteStream.startWrite (s : ByteStream) (initialSize : Nat) : ByteStream :=
  s.extend initialSize

/-- The loop of `ByteStream::appendStringPiece(value)` with an iteration
budget: copy what fits into the current range, and extend by the remainder
rounded up to the page size while bytes are outstanding.  An extension
always has capacity for the whole remainder, so the loop finishes at most
one iteration after the first extension and the budget is never
exhausted. -/
def ByteStream.appendSPGo : Nat → ByteStream → List Nat → Nat → ByteStream
  | 0, s, _, _ => s
  | fuel + 1, s, data, offset =>
    let bytes := data.length
    let bytesFit := min (bytes - offset) (s.cur.size - s.cur.position)
    let s1 := s.setRangeAt s.current
      { s.cur with
        buffer := writeBytesAt s.cur.buffer s.cur.position ((data.drop offset).take bytesFit),
        position := s.cur.position + bytesFit }
    if offset + bytesFit = bytes then s1
    else
      ByteStream.appendSPGo fuel
        (s1.extend (roundUp (bytes - (offset + bytesFit)) kPageSize)) data
        (offset + bytesFit)

/-- `ByteStream::appendStringPiece(value)`: raw byte append across range
boundaries. -/
def ByteStream.appendStringPiece (s : ByteStream) (data : List Nat) : ByteStream :=
  ByteStream.appendSPGo (data.length + 2) s data 0

/-- The extension sizes the `appendStringPiece` loop requests from the
arena, mirroring `appendSPGo` step for step. -/
def ByteStream.appendSPRequestsGo : Nat → ByteStream → List Nat → Nat → List Nat
  | 0, _, _, _ => []
  | fuel + 1, s, data, offset =>
    let bytes := data.length
    let bytesFit := min (bytes - offset) (s.cur.size - s.cur.position)
    let s1 := s.setRangeAt s.current
      { s.cur with
        buffer := writeBytesAt s.cur.buffer s.cur.position ((data.drop offset).take bytesFit),
        position := s.cur.position + bytesFit }
    if offset + bytesFit = bytes then []
    else
      roundUp (bytes - (offset + bytesFit)) kPageSize ::
        ByteStream.appendSPRequestsGo fuel
          (s1.extend (roundUp (bytes - (offset + bytesFit)) kPageSize)) data
          (offset + bytesFit)

/-- The extension sizes requested from the arena by
`appendStringPiece s data`. -/
def ByteStream.appendSPRequests (s : ByteStream) (data : List Nat) : List Nat :=
  ByteStream.appendSPRequestsGo (data.length + 2) s data 0

/-- `ByteStream::append<T>(values)` for primitives of width `w`: fast path
when all the values fit in the current range (element-by-element store),
slow path via `appendStringPiece` over the span's bytes (the little-endian
images of the values, which is what `folly::StringPiece` over the span's
memory holds). -/
def ByteStream.append (s : ByteStream) (w : Nat) (vs : List Nat) : ByteStream :=
  if s.cur.position + w * vs.length > s.cur.size then
    s.appendStringPiece ((vs.map (enc w)).flatten)
  else
    let s1 := s.setRangeAt s.current
      { s.cur with buffer := storeValues s.cur.buffer s.cur.position w vs }
    s1.setPos s.current (s.cur.position + w * vs.length)

/-- `ByteStream::appendOne<T>(value)`. -/
def ByteStream.appendOne (s : ByteStream) (w v : Nat) : ByteStream :=
  s.append w [v]

/-- The general-path loop of `ByteStream::appendBool(value, count)` with an
iteration budget: fill what fits of the outstanding bit run into the current
range (`size` in bytes, `position` in bits), extending by
`bits::nbytes(count - offset)` bytes while bits are outstanding. -/
def ByteStream.appendBoolGo : Nat → ByteStream → Bool → Nat → Nat →
    Except Failure ByteStream
  | 0, _, _, _, _ => .error .checkFailure
  | fuel + 1, s, value, count, offset =>
    let bitsFit := min (count - offset) (s.cur.size * 8 - s.cur.position)
    let s1 := s.setRangeAt s.current
      { s.cur with
        buffer := fillBits s.cur.buffer s.cur.position (s.cur.position + bitsFit) value,
        position := s.cur.position + bitsFit }
    if offset + bitsFit = count then .ok s1
    else
      ByteStream.appendBoolGo fuel (s1.extend (nbytes (count - (offset + bitsFit))))
        value count (offset + bitsFit)

/-- `ByteStream::appendBool(value, count)`: fast path sets a single bit when
`count == 1` and the current range has bit headroom, with no check; the
general path asserts `VELOX_DCHECK(isBits_)` (modelled as a `checkFailure`
when the stream is not bit-addressed) and then runs the fill loop. -/
def ByteStream.appendBool (s : ByteStream) (value : Bool) (count : Nat) :
    Except Failure ByteStream :=
  if count = 1 ∧ s.cur.size * 8 - s.cur.position ≠ 0 then
    .ok (s.setRangeAt s.current
      { s.cur with
        buffer := setBit s.cur.buffer s.cur.position value,
        position := s.cur.position + 1 })
  else if s.isBits then
    s.appendBoolGo (count + 2) value count 0
  else
    .error .checkFailure

/-- `ByteStream::writePosition()` is observational only; the byte it points
at is `cur.position`, or none when the stream has no ranges. -/
def ByteStream.writePosition (s : ByteStream) : Option Nat :=
  if s.ranges.isEmpty then none else some s.cur.position

/-- A fresh byte-addressed output stream after `startWrite(initialSize)`. -/
def freshOutput (initialSize : Nat) : ByteStream :=
  (outputStream false false).startWrite initialSize

/-- A fresh bit-addressed output stream after `startWrite(initialSize)`. -/
def freshBitOutput (initialSize : Nat) : ByteStream :=
  (outputStream true false).startWrite initialSize

/-- Apply a sequence of `append<T>` calls (an `appendOne` is an `append` of
a one-element span). -/
def writeValues (w : Nat) (ops : List (List Nat)) (s : ByteStream) : ByteStream :=
  ops.foldl (fun st vs => st.append w vs) s

/-- The input stream over the bytes written by an output stream: one input
range per output range, holding exactly the bytes written into it, handed to
a fresh input-mode stream via `resetInput` (the repository's round-trip
usage). -/
def toInput (s : ByteStream) : ByteStream :=
  inputStream.resetInput
    (s.ranges.map fun r => { buffer := r.buffer, size := r.position, position := 0 })

/-- The bytes written so far, over all ranges, in stream order. -/
def ByteStream.flatten (s : ByteStream) : List Nat :=
  (s.ranges.map ByteRange.written).flatten

/-- The bytes still to be read from an input stream: the unread tail of the
current range followed by the contents of all later ranges. -/
def ByteStream.remaining (s : ByteStream) : List Nat :=
  match s.ranges.drop s.current with
  | [] => []
  | r :: rs => r.contents.drop r.position ++ (rs.map ByteRange.contents).flatten

/-- Well-formedness of an input stream state: the current index is valid,
every range's logical size fits its backing buffer, every byte is a byte,
and the current cursor is in range. -/
def wfInput (s : ByteStream) : Prop :=
  s.current < s.ranges.length ∧
  (∀ r ∈ s.ranges, r.size ≤ r.buffer.length ∧ ∀ b ∈ r.buffer, b < 256) ∧
  s.cur.position ≤ s.cur.size

/-- Well-formedness of an output stream state: there is at least one range,
the current range is the last one, and every range has its cursor within its
capacity, a backing buffer of exactly its capacity, and byte-sized cells. -/
def wfOut (s : ByteStream) : Prop :=
  s.ranges ≠ [] ∧
  s.current = s.ranges.length - 1 ∧
  (∀ r ∈ s.ranges, r.position ≤ r.size ∧ r.buffer.length = r.size ∧
    ∀ b ∈ r.buffer, b < 256)

/-- Well-formedness of a bit-addressed output stream state: every range's
cursor (in bits) lies within eight times its capacity (in bytes), and its
backing buffer holds exactly `size` bytes. -/
def wfBits (s : ByteStream) : Prop :=
  ∀ r ∈ s.ranges, r.position ≤ 8 * r.size ∧ r.buffer.length = r.size

instance : DecidablePred wfBits := fun s => by
  unfold wfBits; infer_instance

/-- One output-path operation of the stream: `append<T>` over a span of
`w`-byte values (`appendOne` is the one-element case) or a raw
`appendStringPiece`. -/
inductive AppendOp where
  | values (w : Nat) (vs : List Nat)
  | raw (data : List Nat)
deriving DecidableEq

/-- Apply one output operation. -/
def applyOp (s : ByteStream) : AppendOp → ByteStream
  | .values w vs => s.append w vs
  | .raw data => s.appendStringPiece data

/-- The number of logical bytes an operation appends. -/
def opBytes : AppendOp → Nat
  | .values w vs => w * vs.length
  | .raw data => data.length

/-- The byte content an operation appends. -/
def opContent : AppendOp → List Nat
  | .values w vs => (vs.map (enc w)).flatten
  | .raw data => data

/-- The payload of an operation consists of machine bytes. -/
def opOk : AppendOp → Prop
  | .values _ _ => True
  | .raw data => ∀ b ∈ data, b < 256

instance : DecidablePred opOk := fun op => by
  cases op with
  | values w vs => exact .isTrue trivial
  | raw data => unfold opOk; infer_instance

instance : DecidablePred wfInput := fun s => by
  unfold wfInput; infer_instance

instance : DecidablePred wfOut := fun s => by
  unfold wfOut; infer_instance

/-! ### Generic list helpers -/

theorem getD_set_self {α : Type} {l : List α} {i : Nat} {x d : α}
    (h : i < l.length) : (l.set i x).getD i d = x := by
  simp [List.getD_eq_getElem?_getD, List.getElem?_set_self h]

theorem getD_set_ne {α : Type} {l : List α} {i j : Nat} {x d : α}
    (h : i ≠ j) : (l.set i x).getD j d = l.getD j d := by
  simp [List.getD_eq_getElem?_getD, List.getElem?_set_ne h]

theorem getD_eq_getElem {α : Type} {l : List α} {i : Nat} {d : α}
    (h : i < l.length) : l.getD i d = l[i] := by
  simp [List.getD_eq_getElem?_getD, List.getElem?_eq_getElem h]

/-! ### Little-endian encoding and decoding -/

theorem enc_length (w v : Nat) : (enc w v).length = w := by
  induction w generalizing v with
  | zero => rfl
  | succ w ih => simp [enc, ih]

theorem enc_bytes_lt (w v : Nat) : ∀ b ∈ enc w v, b < 256 := by
  induction w generalizing v with
  | zero => simp [enc]
  | succ w ih =>
    intro b hb
    simp only [enc, List.mem_cons] at hb
    rcases hb with h | h
    · subst h; exact Nat.mod_lt _ (by norm_num)
    · exact ih _ b h

theorem decLE_enc {w v : Nat} (h : v < 256 ^ w) : decLE (enc w v) = v := by
  induction w generalizing v with
  | zero =>
    simp [enc, decLE]
    omega
  | succ w ih =>
    have hdiv : v / 256 < 256 ^ w := by
      rw [Nat.div_lt_iff_lt_mul (by norm_num)]
      calc v < 256 ^ (w + 1) := h
        _ = 256 ^ w * 256 := by ring
    simp [enc, decLE, ih hdiv, Nat.mod_add_div]

theorem decLE_append (a b : List Nat) :
    decLE (a ++ b) = decLE a + 256 ^ a.length * decLE b := by
  induction a with
  | nil => simp [decLE]
  | cons x xs ih =>
    simp [decLE, ih, Nat.pow_succ]
    ring

/-- Bitwise-or of disjoint parts is addition: the algebraic content of the
scratch-word accumulation `value |= byte << (i * 8)`. -/
theorem lor_shiftLeft_eq_add {a b k : Nat} (h : a < 2 ^ k) :
    a ||| (b <<< k) = a + b * 2 ^ k := by
  rw [Nat.shiftLeft_eq, Nat.lor_comm, Nat.mul_comm b (2 ^ k),
    ← Nat.mul_add_lt_is_or h, Nat.add_comm]

/-! ### Basic stream-state lemmas -/

theorem contents_length {r : ByteRange} (h : r.size ≤ r.buffer.length) :
    r.contents.length = r.size := by
  simp [ByteRange.contents, h]

theorem ranges_length_setPos (s : ByteStream) (i p : Nat) :
    (s.setPos i p).ranges.length = s.ranges.length := by
  simp [ByteStream.setPos]

theorem current_setPos (s : ByteStream) (i p : Nat) :
    (s.setPos i p).current = s.current := rfl

theorem cur_setPos_current (s : ByteStream) (p : Nat)
    (h : s.current < s.ranges.length) :
    (s.setPos s.current p).cur = { s.cur with position := p } := by
  show (s.ranges.set s.current _).getD s.current dfltRange = _
  rw [getD_set_self h]
  rfl

theorem ranges_drop_current (s : ByteStream) (h : s.current < s.ranges.length) :
    s.ranges.drop s.current = s.cur :: s.ranges.drop (s.current + 1) := by
  rw [List.drop_eq_getElem_cons h]
  congr 1
  exact (getD_eq_getElem h).symm

theorem remaining_eq (s : ByteStream) (h : s.current < s.ranges.length) :
    s.remaining = s.cur.contents.drop s.cur.position ++
      ((s.ranges.drop (s.current + 1)).map ByteRange.contents).flatten := by
  unfold ByteStream.remaining
  rw [ranges_drop_current s h]

theorem ranges_drop_setPos_current (s : ByteStream) (p : Nat) :
    (s.setPos s.current p).ranges.drop (s.current + 1) =
      s.ranges.drop (s.current + 1) := by
  simp [ByteStream.setPos, List.drop_set]

theorem cur_mem_ranges {s : ByteStream} (h : s.current < s.ranges.length) :
    s.cur ∈ s.ranges := by
  rw [ByteStream.cur, getD_eq_getElem h]
  exact List.getElem_mem h

theorem wfInput_setPos_current {s : ByteStream} {p : Nat} (h : wfInput s)
    (hp : p ≤ s.cur.size) : wfInput (s.setPos s.current p) := by
  obtain ⟨h1, h2, h3⟩ := h
  refine ⟨by simpa [ranges_length_setPos], ?_, ?_⟩
  · intro r hr
    rcases List.mem_or_eq_of_mem_set hr with hmem | heq
    · exact h2 r hmem
    · subst heq
      exact h2 s.cur (cur_mem_ranges h1)
  · rw [cur_setPos_current s p h1]
    exact hp

/-! ### `readByte` specification -/

theorem next_ok_of_not_last {s : ByteStream} (h1 : s.current < s.ranges.length)
    (h2 : s.current ≠ s.ranges.length - 1) (b : Bool) :
    s.next b = .ok { s.setPos (s.current + 1) 0 with current := s.current + 1 } := by
  simp [ByteStream.next, h1, h2]

theorem readByteGo_spec : ∀ (fuel : Nat) (s : ByteStream) (b : Nat)
    (rest : List Nat), wfInput s → s.remaining = b :: rest →
    s.ranges.length - s.current ≤ fuel →
    ∃ s1, ByteStream.readByteGo fuel s = .ok (b, s1) ∧ wfInput s1 ∧
      s1.remaining = rest ∧ s1.ranges.length = s.ranges.length ∧
      s.current ≤ s1.current ∧ b < 256 := by
  intro fuel
  induction fuel with
  | zero =>
    intro s b rest hwf hrem hfuel
    obtain ⟨h1, _, _⟩ := hwf
    omega
  | succ fuel ih =>
    intro s b rest hwf hrem hfuel
    obtain ⟨h1, h2, h3⟩ := hwf
    have hbuf : s.cur.size ≤ s.cur.buffer.length := (h2 s.cur (cur_mem_ranges h1)).1
    by_cases hlt : s.cur.position < s.cur.size
    · -- fast branch: byte under the cursor
      have hclen : s.cur.position < s.cur.contents.length := by
        rwa [contents_length hbuf]
      have hdrop : s.cur.contents.drop s.cur.position =
          s.cur.contents[s.cur.position] :: s.cur.contents.drop (s.cur.position + 1) :=
        List.drop_eq_getElem_cons hclen
      rw [remaining_eq s h1, hdrop, List.cons_append] at hrem
      have hb2 := (List.cons.injEq _ _ _ _).mp hrem
      have hb : s.cur.buffer.getD s.cur.position 0 = b := by
        rw [getD_eq_getElem (show s.cur.position < s.cur.buffer.length by omega),
          ← hb2.1]
        simp [ByteRange.contents]
      refine ⟨s.setPos s.current (s.cur.position + 1), ?_, ?_, ?_, ?_, ?_, ?_⟩
      · simp only [ByteStream.readByteGo, hlt, if_pos, hb]
      · exact wfInput_setPos_current ⟨h1, h2, h3⟩ (by omega)
      · have hlen : (s.setPos s.current (s.cur.position + 1)).current <
            (s.setPos s.current (s.cur.position + 1)).ranges.length := by
          simpa [ranges_length_setPos]
        rw [remaining_eq _ hlen, current_setPos, ranges_drop_setPos_current,
          cur_setPos_current _ _ h1]
        exact hb2.2
      · exact ranges_length_setPos s _ _
      · simp [current_setPos]
      · rw [← hb, getD_eq_getElem (by omega)]
        exact (h2 s.cur (cur_mem_ranges h1)).2 _ (List.getElem_mem _)
    · -- current range exhausted: advance
      have hpos : s.cur.position = s.cur.size := by omega
      have hdropnil : s.cur.contents.drop s.cur.position = [] := by
        apply List.drop_eq_nil_of_le
        rw [contents_length hbuf]; omega
      rw [remaining_eq s h1, hdropnil, List.nil_append] at hrem
      have hnotlast : s.current ≠ s.ranges.length - 1 := by
        intro heq
        rw [show s.ranges.drop (s.current + 1) = [] from
          List.drop_eq_nil_of_le (by omega)] at hrem
        simp at hrem
      have hnext := next_ok_of_not_last h1 hnotlast true
      have hc2lt : s.current + 1 < s.ranges.length := by omega
      obtain ⟨s2, hs2r, hs2c, hs2other⟩ :
          ∃ s2 : ByteStream,
            s2.ranges = s.ranges.set (s.current + 1)
              { s.ranges.getD (s.current + 1) dfltRange with position := 0 } ∧
            s2.current = s.current + 1 ∧
            ({ s.setPos (s.current + 1) 0 with current := s.current + 1 } : ByteStream)
              = s2 :=
        ⟨_, rfl, rfl, rfl⟩
      have hlen2 : s2.ranges.length = s.ranges.length := by
        rw [hs2r]; exact List.length_set ..
      have hcur2v : s2.cur = { s.ranges.getD (s.current + 1) dfltRange with position := 0 } := by
        rw [ByteStream.cur, hs2c, hs2r, getD_set_self (by omega)]
      have hbase := h2 _ (by
        rw [getD_eq_getElem hc2lt]
        exact List.getElem_mem hc2lt : s.ranges.getD (s.current + 1) dfltRange ∈ s.ranges)
      have hwf2 : wfInput s2 := by
        refine ⟨by omega, ?_, ?_⟩
        · intro r hr
          rw [hs2r] at hr
          rcases List.mem_or_eq_of_mem_set hr with hmem | heq
          · exact h2 r hmem
          · subst heq
            exact ⟨hbase.1, hbase.2⟩
        · rw [hcur2v]
          exact Nat.zero_le _
      have htail2 : s2.ranges.drop (s2.current + 1) = s.ranges.drop (s.current + 2) := by
        rw [hs2c, hs2r, List.drop_set]
        simp
      have hrem2 : s2.remaining = b :: rest := by
        rw [remaining_eq s2 (by omega), hcur2v, htail2]
        have hsplit : s.ranges.drop (s.current + 1) =
            s.ranges[s.current + 1] :: s.ranges.drop (s.current + 2) :=
          List.drop_eq_getElem_cons hc2lt
        rw [hsplit, List.map_cons, List.flatten_cons] at hrem
        have hcc : ({ s.ranges.getD (s.current + 1) dfltRange with position := 0 }
            : ByteRange).contents = s.ranges[s.current + 1].contents := by
          rw [getD_eq_getElem hc2lt]
          rfl
        rw [hcc, List.drop_zero]
        exact hrem
      obtain ⟨s1, hrun, hwf1, hrem1, hlen1, hcur1, hblt⟩ :=
        ih s2 b rest hwf2 hrem2 (by omega)
      refine ⟨s1, ?_, hwf1, hrem1, by omega, by
        have := hs2c ▸ hcur1
        omega, hblt⟩
      have hnext2 : s.next true = Except.ok s2 := by
        rw [next_ok_of_not_last h1 hnotlast true, hs2other]
      simp only [ByteStream.readByteGo, hlt, if_false, ite_false]
      rw [hnext2]
      exact hrun

theorem readByte_spec {s : ByteStream} {b : Nat} {rest : List Nat}
    (hwf : wfInput s) (hrem : s.remaining = b :: rest) :
    ∃ s1, s.readByte = .ok (b, s1) ∧ wfInput s1 ∧ s1.remaining = rest ∧
      s1.ranges.length = s.ranges.length ∧ b < 256 := by
  obtain ⟨s1, hrun, hwf1, hrem1, hlen1, _, hblt⟩ :=
    readByteGo_spec (s.ranges.length + 1) s b rest hwf hrem (by omega)
  exact ⟨s1, hrun, hwf1, hrem1, hlen1, hblt⟩

/-! ### `read<T>` specification -/

theorem readSlowGo_spec : ∀ (k : Nat) (i value : Nat) (s : ByteStream)
    (bs rest : List Nat), wfInput s → s.remaining = bs ++ rest →
    bs.length = k → (∀ b ∈ bs, b < 256) → value < 2 ^ (i * 8) →
    ∃ s1, ByteStream.readSlowGo k i value s =
        .ok (value + decLE bs * 2 ^ (i * 8), s1) ∧
      wfInput s1 ∧ s1.remaining = rest ∧ s1.ranges.length = s.ranges.length := by
  intro k
  induction k with
  | zero =>
    intro i value s bs rest hwf hrem hlen hbytes hval
    have hnil : bs = [] := List.eq_nil_of_length_eq_zero hlen
    subst hnil
    exact ⟨s, by simp [ByteStream.readSlowGo, decLE], hwf, by simpa using hrem, rfl⟩
  | succ k ih =>
    intro i value s bs rest hwf hrem hlen hbytes hval
    obtain ⟨b, bs2, rfl⟩ : ∃ b bs2, bs = b :: bs2 := by
      cases bs with
      | nil => simp at hlen
      | cons b bs2 => exact ⟨b, bs2, rfl⟩
    rw [List.cons_append] at hrem
    obtain ⟨s1, hrun1, hwf1, hrem1, hl1, hblt⟩ := readByte_spec hwf hrem
    have hb256 : b < 256 := hbytes b (by simp)
    have hval2 : value ||| (b <<< (i * 8)) = value + b * 2 ^ (i * 8) :=
      lor_shiftLeft_eq_add hval
    have hval2lt : value + b * 2 ^ (i * 8) < 2 ^ ((i + 1) * 8) := by
      have h28 : (256 : Nat) = 2 ^ 8 := by norm_num
      calc value + b * 2 ^ (i * 8)
          < 2 ^ (i * 8) + b * 2 ^ (i * 8) := by omega
        _ ≤ 2 ^ (i * 8) + 255 * 2 ^ (i * 8) := by
            have : b * 2 ^ (i * 8) ≤ 255 * 2 ^ (i * 8) :=
              Nat.mul_le_mul_right _ (by omega)
            omega
        _ = 256 * 2 ^ (i * 8) := by ring
        _ = 2 ^ ((i + 1) * 8) := by
            rw [h28, ← Nat.pow_add]
            congr 1
            ring
    obtain ⟨s2, hrun2, hwf2, hrem2, hl2⟩ :=
      ih (i + 1) (value + b * 2 ^ (i * 8)) s1 bs2 rest hwf1 hrem1
        (by simpa using hlen) (fun x hx => hbytes x (by simp [hx])) hval2lt
    refine ⟨s2, ?_, hwf2, hrem2, by omega⟩
    have heq : value + b * 2 ^ (i * 8) + decLE bs2 * 2 ^ ((i + 1) * 8)
        = value + decLE (b :: bs2) * 2 ^ (i * 8) := by
      have hp : (2 : Nat) ^ ((i + 1) * 8) = 2 ^ (i * 8) * 2 ^ 8 := by
        rw [← Nat.pow_add]
        ring_nf
      have h28 : (256 : Nat) = 2 ^ 8 := by norm_num
      simp only [decLE]
      rw [hp, h28]
      ring
    simp only [ByteStream.readSlowGo, hrun1, hval2, hrun2, heq]

theorem read_spec {s : ByteStream} {w : Nat} {bs rest : List Nat}
    (hwf : wfInput s) (hrem : s.remaining = bs ++ rest) (hlen : bs.length = w)
    (hbytes : ∀ b ∈ bs, b < 256) :
    ∃ s1, s.read w = .ok (decLE bs, s1) ∧ wfInput s1 ∧ s1.remaining = rest ∧
      s1.ranges.length = s.ranges.length := by
  obtain ⟨h1, h2, h3⟩ := hwf
  have hbuf : s.cur.size ≤ s.cur.buffer.length := (h2 s.cur (cur_mem_ranges h1)).1
  by_cases hfast : s.cur.position + w ≤ s.cur.size
  · -- value lies within the current range
    have hdlen : (s.cur.contents.drop s.cur.position).length =
        s.cur.size - s.cur.position := by
      rw [List.length_drop, contents_length hbuf]
    have htake1 : (s.remaining).take w = bs := by
      rw [hrem, List.take_append_of_le_length (by omega), List.take_of_length_le (by omega)]
    have htake2 : (s.remaining).take w =
        (s.cur.contents.drop s.cur.position).take w := by
      rw [remaining_eq s h1, List.take_append_of_le_length (by omega)]
    have hslice : (s.cur.buffer.drop s.cur.position).take w =
        (s.cur.contents.drop s.cur.position).take w := by
      unfold ByteRange.contents
      rw [List.drop_take, List.take_take]
      congr 1
      omega
    have hbs : (s.cur.buffer.drop s.cur.position).take w = bs := by
      rw [hslice, ← htake2, htake1]
    have hrest : rest = s.cur.contents.drop (s.cur.position + w) ++
        ((s.ranges.drop (s.current + 1)).map ByteRange.contents).flatten := by
      have hsplit : s.cur.contents.drop s.cur.position =
          bs ++ s.cur.contents.drop (s.cur.position + w) := by
        conv_lhs => rw [← List.take_append_drop w (s.cur.contents.drop s.cur.position)]
        rw [← htake2, htake1, List.drop_drop]
      have hx : bs ++ rest = bs ++ (s.cur.contents.drop (s.cur.position + w)
          ++ ((s.ranges.drop (s.current + 1)).map ByteRange.contents).flatten) := by
        rw [← hrem, remaining_eq s h1, hsplit, List.append_assoc]
      exact List.append_cancel_left hx
    refine ⟨s.setPos s.current (s.cur.position + w), ?_, ?_, ?_, ?_⟩
    · simp only [ByteStream.read, hfast, if_pos, hbs]
    · exact wfInput_setPos_current ⟨h1, h2, h3⟩ (by omega)
    · have hlen2 : (s.setPos s.current (s.cur.position + w)).current <
          (s.setPos s.current (s.cur.position + w)).ranges.length := by
        simpa [ranges_length_setPos]
      rw [remaining_eq _ hlen2, current_setPos, ranges_drop_setPos_current,
        cur_setPos_current _ _ h1, hrest]
      rfl
    · exact ranges_length_setPos s _ _
  · -- the value straddles ranges: byte-wise reconstruction
    obtain ⟨s1, hrun, hwf1, hrem1, hl1⟩ :=
      readSlowGo_spec w 0 0 s bs rest ⟨h1, h2, h3⟩ hrem hlen hbytes (by simp)
    refine ⟨s1, ?_, hwf1, hrem1, hl1⟩
    simp only [ByteStream.read, hfast, if_false, ite_false]
    rw [hrun]
    simp

theorem readAll_spec : ∀ (vs : List Nat) (w : Nat) (s : ByteStream)
    (rest : List Nat), wfInput s →
    s.remaining = (vs.map (enc w)).flatten ++ rest →
    (∀ v ∈ vs, v < 256 ^ w) →
    ∃ s1, s.readAll w vs.length = .ok (vs, s1) ∧ wfInput s1 ∧
      s1.remaining = rest := by
  intro vs
  induction vs with
  | nil =>
    intro w s rest hwf hrem _
    exact ⟨s, by simp [ByteStream.readAll], hwf, by simpa using hrem⟩
  | cons v vs ih =>
    intro w s rest hwf hrem hvals
    rw [List.map_cons, List.flatten_cons, List.append_assoc] at hrem
    obtain ⟨s1, hrun1, hwf1, hrem1, _⟩ :=
      read_spec hwf hrem (enc_length w v) (enc_bytes_lt w v)
    obtain ⟨s2, hrun2, hwf2, hrem2⟩ :=
      ih w s1 rest hwf1 hrem1 (fun x hx => hvals x (by simp [hx]))
    refine ⟨s2, ?_, hwf2, hrem2⟩
    have hv : decLE (enc w v) = v := decLE_enc (hvals v (by simp))
    simp only [List.length_cons, ByteStream.readAll, hrun1, hv, hrun2]

/-! ### `writeBytesAt` and `storeValues` -/

theorem writeBytesAt_length : ∀ (data buf : List Nat) (pos : Nat),
    (writeBytesAt buf pos data).length = buf.length := by
  intro data
  induction data with
  | nil => intro buf pos; rfl
  | cons d ds ih =>
    intro buf pos
    simp [writeBytesAt, ih]

theorem writeBytesAt_mem : ∀ (data buf : List Nat) (pos : Nat) (b : Nat),
    b ∈ writeBytesAt buf pos data → b ∈ buf ∨ b ∈ data := by
  intro data
  induction data with
  | nil => intro buf pos b hb; exact Or.inl hb
  | cons d ds ih =>
    intro buf pos b hb
    rcases ih (buf.set pos d) (pos + 1) b hb with hmem | hmem
    · rcases List.mem_or_eq_of_mem_set hmem with h | h
      · exact Or.inl h
      · exact Or.inr (by simp [h])
    · exact Or.inr (by simp [hmem])

theorem writeBytesAt_spec : ∀ (data buf : List Nat) (pos : Nat),
    pos + data.length ≤ buf.length →
    writeBytesAt buf pos data =
      buf.take pos ++ data ++ buf.drop (pos + data.length) := by
  intro data
  induction data with
  | nil =>
    intro buf pos h
    simp [writeBytesAt]
  | cons d ds ih =>
    intro buf pos h
    simp only [List.length_cons] at h
    have hpos : pos < buf.length := by omega
    have hlen1 : (buf.take pos).length = pos := by
      rw [List.length_take]; omega
    have hA : (buf.set pos d).take (pos + 1) = buf.take pos ++ [d] := by
      rw [List.set_eq_take_cons_drop d hpos, List.take_append_eq_append_take,
        List.take_of_length_le (by omega), hlen1]
      have h1 : pos + 1 - pos = 1 := by omega
      rw [h1]
      simp
    have hB : (buf.set pos d).drop (pos + 1 + ds.length) =
        buf.drop (pos + (ds.length + 1)) := by
      rw [List.drop_set]
      simp only [if_pos (show pos < pos + 1 + ds.length by omega)]
      congr 1
      omega
    rw [writeBytesAt, ih (buf.set pos d) (pos + 1) (by simp; omega), hA, hB]
    simp [List.append_assoc]

theorem writeBytesAt_append : ∀ (d1 d2 buf : List Nat) (pos : Nat),
    writeBytesAt buf pos (d1 ++ d2) =
      writeBytesAt (writeBytesAt buf pos d1) (pos + d1.length) d2 := by
  intro d1
  induction d1 with
  | nil => intro d2 buf pos; simp [writeBytesAt]
  | cons d ds ih =>
    intro d2 buf pos
    have h1 : writeBytesAt buf pos ((d :: ds) ++ d2) =
        writeBytesAt (buf.set pos d) (pos + 1) (ds ++ d2) := rfl
    have h2 : writeBytesAt buf pos (d :: ds) =
        writeBytesAt (buf.set pos d) (pos + 1) ds := rfl
    rw [h1, ih, h2]
    congr 1
    simp only [List.length_cons]
    omega

theorem storeValues_eq : ∀ (vs : List Nat) (buf : List Nat) (pos w : Nat),
    storeValues buf pos w vs = writeBytesAt buf pos ((vs.map (enc w)).flatten) := by
  intro vs
  induction vs with
  | nil => intro buf pos w; rfl
  | cons v vs ih =>
    intro buf pos w
    simp only [storeValues, List.map_cons, List.flatten_cons]
    rw [ih, writeBytesAt_append, enc_length]

theorem enc_flatten_length (vs : List Nat) (w : Nat) :
    ((vs.map (enc w)).flatten).length = w * vs.length := by
  induction vs with
  | nil => simp
  | cons v vs ih =>
    simp only [List.map_cons, List.flatten_cons, List.length_append, ih,
      enc_length, List.length_cons]
    ring

/-! ### Output-state lemmas -/

theorem written_length {r : ByteRange} (h : r.position ≤ r.buffer.length) :
    r.written.length = r.position := by
  simp [ByteRange.written, h]

theorem wfOut_decomp {s : ByteStream} (h : wfOut s) :
    ∃ rs r, s.ranges = rs ++ [r] ∧ s.current = rs.length ∧ s.cur = r := by
  obtain ⟨hne, hcur, _⟩ := h
  have hlen : 1 ≤ s.ranges.length := by
    cases hr : s.ranges with
    | nil => exact absurd hr hne
    | cons a l => simp [hr]
  refine ⟨s.ranges.dropLast, s.ranges.getLast hne, ?_, ?_, ?_⟩
  · exact (List.dropLast_concat_getLast hne).symm
  · rw [hcur, List.length_dropLast]
  · rw [ByteStream.cur, hcur, getD_eq_getElem (by omega), List.getLast_eq_getElem]

theorem size_foldl_eq : ∀ (rs : List ByteRange) (a : Nat),
    (∀ r ∈ rs, r.position ≤ r.buffer.length) →
    rs.foldl (fun total r => total + r.position) a =
      a + ((rs.map ByteRange.written).flatten).length := by
  intro rs
  induction rs with
  | nil => intro a _; simp
  | cons r rs ih =>
    intro a h
    simp only [List.foldl_cons, List.map_cons, List.flatten_cons, List.length_append]
    rw [ih (a + r.position) (fun x hx => h x (by simp [hx])),
      written_length (h r (by simp))]
    omega

theorem size_eq_flatten_length {s : ByteStream}
    (h : ∀ r ∈ s.ranges, r.position ≤ r.buffer.length) :
    s.size = s.flatten.length := by
  rw [ByteStream.size, ByteStream.flatten, size_foldl_eq s.ranges 0 h]
  omega

/-- Effect of overwriting part of the current (last) range of a well-formed
output stream and advancing its cursor past the written slice: the slice must
fit the remaining capacity; all other ranges are untouched and the written
bytes of the stream grow by exactly the slice. -/
theorem write_cur_spec {s s1 : ByteStream} (hwf : wfOut s) (slice : List Nat)
    (hs1 : s1 = s.setRangeAt s.current
      { s.cur with
        buffer := writeBytesAt s.cur.buffer s.cur.position slice,
        position := s.cur.position + slice.length })
    (hfit : s.cur.position + slice.length ≤ s.cur.size)
    (hb : ∀ b ∈ slice, b < 256) :
    wfOut s1 ∧ s1.flatten = s.flatten ++ slice ∧
    s1.ranges.length = s.ranges.length ∧ s1.current = s.current ∧
    (∀ j, j ≠ s.current → s1.ranges.getD j dfltRange = s.ranges.getD j dfltRange) ∧
    s1.cur.size = s.cur.size ∧ s1.cur.position = s.cur.position + slice.length ∧
    s1.cur.buffer = writeBytesAt s.cur.buffer s.cur.position slice := by
  obtain ⟨rs, r, hranges, hcuridx, hcurval⟩ := wfOut_decomp hwf
  obtain ⟨hne, hcur, hall⟩ := hwf
  have hrprops := hall r (by rw [hranges]; simp)
  have hblen : s.cur.buffer.length = s.cur.size := by rw [hcurval]; exact hrprops.2.1
  have hcurlt : s.current < s.ranges.length := by
    rw [hranges, hcuridx]; simp
  have hr1 : s1.ranges = s.ranges.set s.current
      { s.cur with
        buffer := writeBytesAt s.cur.buffer s.cur.position slice,
        position := s.cur.position + slice.length } := by
    rw [hs1]; rfl
  have hc1 : s1.current = s.current := by rw [hs1]; rfl
  have hsetlist : s1.ranges = rs ++
      [{ s.cur with
        buffer := writeBytesAt s.cur.buffer s.cur.position slice,
        position := s.cur.position + slice.length }] := by
    rw [hr1, hranges, hcuridx, List.set_append_right _ _ (by omega)]
    simp
  have hlen1 : s1.ranges.length = s.ranges.length := by
    rw [hr1]; exact List.length_set ..
  have hcur1 : s1.cur = { s.cur with
      buffer := writeBytesAt s.cur.buffer s.cur.position slice,
      position := s.cur.position + slice.length } := by
    rw [ByteStream.cur, hc1, hr1, getD_set_self hcurlt]
  have hwritten : ({ s.cur with
      buffer := writeBytesAt s.cur.buffer s.cur.position slice,
      position := s.cur.position + slice.length } : ByteRange).written
      = r.written ++ slice := by
    show (writeBytesAt s.cur.buffer s.cur.position slice).take
      (s.cur.position + slice.length) = r.written ++ slice
    rw [writeBytesAt_spec slice s.cur.buffer s.cur.position (by omega),
      List.take_append_of_le_length (by
        rw [List.length_append, List.length_take]
        omega),
      List.take_of_length_le (by
        rw [List.length_append, List.length_take]
        omega)]
    rw [hcurval]
    rfl
  refine ⟨?_, ?_, hlen1, hc1, ?_, ?_, ?_, ?_⟩
  · refine ⟨?_, ?_, ?_⟩
    · rw [hsetlist]; simp
    · rw [hc1, hlen1, hcur]
    · intro x hx
      rw [hr1] at hx
      rcases List.mem_or_eq_of_mem_set hx with hmem | heq
      · exact hall x hmem
      · subst heq
        refine ⟨by simp; omega, ?_, ?_⟩
        · show (writeBytesAt s.cur.buffer s.cur.position slice).length = s.cur.size
          rw [writeBytesAt_length]; omega
        · intro b hbmem
          rcases writeBytesAt_mem slice s.cur.buffer s.cur.position b hbmem with hm2 | hm2
          · exact ((hall s.cur (cur_mem_ranges hcurlt)).2.2) b hm2
          · exact hb b hm2
  · rw [ByteStream.flatten, ByteStream.flatten, hsetlist, hranges]
    simp only [List.map_append, List.map_cons, List.map_nil, List.flatten_append,
      List.flatten_cons, List.flatten_nil, List.append_nil]
    rw [hwritten]
    simp [List.append_assoc]
  · intro j hj
    rw [hr1, getD_set_ne (by omega)]
  · rw [hcur1]
  · rw [hcur1]
  · rw [hcur1]

/-! ### `extend` and the raw-byte append loop -/

theorem extend_spec {s : ByteStream} (hwf : wfOut s) (n : Nat) :
    wfOut (s.extend n) ∧ (s.extend n).flatten = s.flatten ∧
    (s.extend n).ranges.length = s.ranges.length + 1 ∧
    (s.extend n).current = s.ranges.length ∧
    (∀ j, j < s.ranges.length →
      (s.extend n).ranges.getD j dfltRange = s.ranges.getD j dfltRange) ∧
    (s.extend n).cur = ⟨List.replicate n 0, n, 0⟩ := by
  obtain ⟨hne, hcur, hall⟩ := hwf
  have hr : (s.extend n).ranges = s.ranges ++ [⟨List.replicate n 0, n, 0⟩] := rfl
  have hc : (s.extend n).current = s.ranges.length := rfl
  have hcurval : (s.extend n).cur = ⟨List.replicate n 0, n, 0⟩ := by
    rw [ByteStream.cur, hc, hr, getD_eq_getElem (by simp)]
    exact List.getElem_concat_length _ _ _ rfl _
  refine ⟨⟨?_, ?_, ?_⟩, ?_, by rw [hr]; simp, hc, ?_, hcurval⟩
  · rw [hr]; simp
  · rw [hc, hr]; simp
  · intro r hmem
    rw [hr] at hmem
    rcases List.mem_append.mp hmem with h | h
    · exact hall r h
    · simp only [List.mem_singleton] at h
      subst h
      refine ⟨by simp, by simp, ?_⟩
      intro b hb
      rw [List.mem_replicate] at hb
      omega
  · rw [ByteStream.flatten, ByteStream.flatten, hr]
    simp [ByteRange.written]
  · intro j hj
    rw [hr, List.getD_eq_getElem?_getD, List.getD_eq_getElem?_getD,
      List.getElem?_append_left hj]

theorem roundUp_ge {x p : Nat} (hp : 0 < p) : x ≤ roundUp x p := by
  rw [roundUp]
  have hmod := Nat.mod_lt (x + p - 1) hp
  have hdm := Nat.div_add_mod (x + p - 1) p
  have hcomm : ((x + p - 1) / p) * p = p * ((x + p - 1) / p) := Nat.mul_comm _ _
  omega

theorem roundUp_pos {x p : Nat} (hp : 0 < p) (hx : 0 < x) : 0 < roundUp x p :=
  Nat.lt_of_lt_of_le hx (roundUp_ge hp)

theorem appendSPGo_spec : ∀ (fuel : Nat) (s : ByteStream) (data : List Nat)
    (offset : Nat), wfOut s → offset ≤ data.length → (∀ b ∈ data, b < 256) →
    ((data.length - offset ≤ s.cur.size - s.cur.position ∧ 1 ≤ fuel) ∨ 2 ≤ fuel) →
    wfOut (ByteStream.appendSPGo fuel s data offset) ∧
    (ByteStream.appendSPGo fuel s data offset).flatten
      = s.flatten ++ data.drop offset ∧
    s.ranges.length ≤ (ByteStream.appendSPGo fuel s data offset).ranges.length ∧
    (∀ j, j < s.ranges.length → j ≠ s.current →
      (ByteStream.appendSPGo fuel s data offset).ranges.getD j dfltRange
        = s.ranges.getD j dfltRange) ∧
    ((ByteStream.appendSPGo fuel s data offset).ranges.getD s.current dfltRange).size
      = s.cur.size := by
  intro fuel
  induction fuel with
  | zero =>
    intro s data offset _ _ _ hfuel
    exact absurd hfuel (by omega)
  | succ fuel ih =>
    intro s data offset hwf hoff hdata hfuel
    obtain ⟨hne, hcuridx, hall⟩ := hwf
    have hcurlt : s.current < s.ranges.length := by
      cases hr : s.ranges with
      | nil => exact absurd hr hne
      | cons a l => rw [hcuridx, hr]; simp
    have hcurprops := hall s.cur (cur_mem_ranges hcurlt)
    have hposle : s.cur.position ≤ s.cur.size := hcurprops.1
    have hfit0 : min (data.length - offset) (s.cur.size - s.cur.position)
        ≤ s.cur.size - s.cur.position := Nat.min_le_right _ _
    have hfit1 : min (data.length - offset) (s.cur.size - s.cur.position)
        ≤ data.length - offset := Nat.min_le_left _ _
    have hslicelen : ((data.drop offset).take
        (min (data.length - offset) (s.cur.size - s.cur.position))).length
        = min (data.length - offset) (s.cur.size - s.cur.position) := by
      rw [List.length_take, List.length_drop]
      omega
    obtain ⟨S1, hS1⟩ : ∃ t : ByteStream, t = s.setRangeAt s.current
        { s.cur with
          buffer := writeBytesAt s.cur.buffer s.cur.position
            ((data.drop offset).take
              (min (data.length - offset) (s.cur.size - s.cur.position))),
          position := s.cur.position
            + min (data.length - offset) (s.cur.size - s.cur.position) } :=
      ⟨_, rfl⟩
    obtain ⟨hwf1, hflat1, hlen1, hc1, hoth1, hsz1, hpos1, hbuf1⟩ :=
      write_cur_spec ⟨hne, hcuridx, hall⟩
        ((data.drop offset).take
          (min (data.length - offset) (s.cur.size - s.cur.position)))
        (hS1.trans (by rw [hslicelen])) (by rw [hslicelen]; omega)
        (fun b hb => hdata b (List.mem_of_mem_drop (List.mem_of_mem_take hb)))
    by_cases hdone : offset + min (data.length - offset) (s.cur.size - s.cur.position)
        = data.length
    · -- the whole remainder fits in the current range
      have hrun : ByteStream.appendSPGo (fuel + 1) s data offset = S1 := by
        rw [hS1]
        simp only [ByteStream.appendSPGo, hdone, if_pos]
      have hsliceall : (data.drop offset).take
          (min (data.length - offset) (s.cur.size - s.cur.position))
          = data.drop offset := by
        apply List.take_of_length_le
        rw [List.length_drop]
        omega
      rw [hrun]
      rw [ByteStream.cur, hc1] at hsz1
      refine ⟨hwf1, ?_, by omega, ?_, hsz1⟩
      · rw [hflat1, hsliceall]
      · intro j hjl hjn
        exact hoth1 j hjn
    · -- extend and continue with the remainder
      have hofflt : offset + min (data.length - offset)
          (s.cur.size - s.cur.position) < data.length := by
        omega
      have hrempos : 0 < data.length
          - (offset + min (data.length - offset) (s.cur.size - s.cur.position)) := by
        omega
      have hreqge : data.length
          - (offset + min (data.length - offset) (s.cur.size - s.cur.position))
          ≤ roundUp (data.length
            - (offset + min (data.length - offset) (s.cur.size - s.cur.position)))
            kPageSize :=
        roundUp_ge (by rw [kPageSize]; omega)
      obtain ⟨hwf2, hflat2, hlen2, hcur2, hoth2, hcurval2⟩ :=
        extend_spec hwf1 (roundUp (data.length
          - (offset + min (data.length - offset) (s.cur.size - s.cur.position)))
          kPageSize)
      obtain ⟨ihwf, ihflat, ihlen, ihoth, ihsz⟩ :=
        ih (S1.extend (roundUp (data.length
            - (offset + min (data.length - offset) (s.cur.size - s.cur.position)))
            kPageSize)) data
          (offset + min (data.length - offset) (s.cur.size - s.cur.position))
          hwf2 (by omega) hdata
          (Or.inl ⟨by rw [hcurval2]; simpa using hreqge, by omega⟩)
      have hrun : ByteStream.appendSPGo (fuel + 1) s data offset
          = ByteStream.appendSPGo fuel
            (S1.extend (roundUp (data.length
              - (offset + min (data.length - offset) (s.cur.size - s.cur.position)))
              kPageSize)) data
            (offset + min (data.length - offset) (s.cur.size - s.cur.position)) := by
        rw [hS1]
        simp only [ByteStream.appendSPGo, hdone, if_false, ite_false]
      have hjoin : (data.drop offset).take
            (min (data.length - offset) (s.cur.size - s.cur.position))
          ++ data.drop (offset + min (data.length - offset)
            (s.cur.size - s.cur.position))
          = data.drop offset := by
        have hdd : data.drop (offset + min (data.length - offset)
            (s.cur.size - s.cur.position))
            = (data.drop offset).drop
              (min (data.length - offset) (s.cur.size - s.cur.position)) := by
          rw [List.drop_drop]
        rw [hdd, List.take_append_drop]
      rw [hrun]
      refine ⟨ihwf, ?_, by omega, ?_, ?_⟩
      · rw [ihflat, hflat2, hflat1, List.append_assoc, hjoin]
      · intro j hjl hjn
        rw [ihoth j (by omega) (by omega), hoth2 j (by omega), hoth1 j hjn]
      · have hsc : s.current < S1.ranges.length := by omega
        rw [ihoth s.current (by omega) (by omega), hoth2 s.current (by omega)]
        rw [ByteStream.cur, hc1] at hsz1
        exact hsz1

theorem enc_flatten_bytes_lt (vs : List Nat) (w : Nat) :
    ∀ b ∈ (vs.map (enc w)).flatten, b < 256 := by
  intro b hb
  rw [List.mem_flatten] at hb
  obtain ⟨l, hl, hbl⟩ := hb
  rw [List.mem_map] at hl
  obtain ⟨v, _, rfl⟩ := hl
  exact enc_bytes_lt w v b hbl

theorem appendStringPiece_spec {s : ByteStream} {data : List Nat}
    (hwf : wfOut s) (hdata : ∀ b ∈ data, b < 256) :
    wfOut (s.appendStringPiece data) ∧
    (s.appendStringPiece data).flatten = s.flatten ++ data ∧
    s.ranges.length ≤ (s.appendStringPiece data).ranges.length ∧
    (∀ j, j < s.ranges.length → j ≠ s.current →
      (s.appendStringPiece data).ranges.getD j dfltRange
        = s.ranges.getD j dfltRange) ∧
    ((s.appendStringPiece data).ranges.getD s.current dfltRange).size
      = s.cur.size := by
  obtain ⟨h1, h2, h3, h4, h5⟩ :=
    appendSPGo_spec (data.length + 2) s data 0 hwf (by omega) hdata
      (Or.inr (by omega))
  exact ⟨h1, by simpa using h2, h3, h4, h5⟩

theorem setRangeAt_setPos (s : ByteStream) (r : ByteRange) (p : Nat)
    (h : s.current < s.ranges.length) :
    (s.setRangeAt s.current r).setPos s.current p
      = s.setRangeAt s.current { r with position := p } := by
  simp only [ByteStream.setPos, ByteStream.setRangeAt]
  rw [getD_set_self h, List.set_set]

theorem append_spec {s : ByteStream} (w : Nat) (vs : List Nat)
    (hwf : wfOut s) :
    wfOut (s.append w vs) ∧
    (s.append w vs).flatten = s.flatten ++ (vs.map (enc w)).flatten := by
  obtain ⟨hne, hcuridx, hall⟩ := hwf
  have hcurlt : s.current < s.ranges.length := by
    cases hr : s.ranges with
    | nil => exact absurd hr hne
    | cons a l => rw [hcuridx, hr]; simp
  by_cases hfast : s.cur.position + w * vs.length > s.cur.size
  · -- slow path through appendStringPiece
    have hrun : s.append w vs = s.appendStringPiece ((vs.map (enc w)).flatten) := by
      simp only [ByteStream.append, hfast, if_pos]
    obtain ⟨h1, h2, _, _, _⟩ :=
      appendStringPiece_spec ⟨hne, hcuridx, hall⟩ (enc_flatten_bytes_lt vs w)
    rw [hrun]
    exact ⟨h1, h2⟩
  · -- fast path: element-by-element store in the current range
    have hposle : s.cur.position ≤ s.cur.size :=
      (hall s.cur (cur_mem_ranges hcurlt)).1
    have hrun : s.append w vs
        = (s.setRangeAt s.current
            { s.cur with buffer := storeValues s.cur.buffer s.cur.position w vs
            }).setPos s.current (s.cur.position + w * vs.length) := by
      simp only [ByteStream.append, hfast, if_false, ite_false]
    have hflatlen : ((vs.map (enc w)).flatten).length = w * vs.length :=
      enc_flatten_length vs w
    obtain ⟨T1, hT1⟩ : ∃ t : ByteStream, t = s.setRangeAt s.current
        { { s.cur with buffer := storeValues s.cur.buffer s.cur.position w vs }
          with position := s.cur.position + w * vs.length } := ⟨_, rfl⟩
    rw [hrun, setRangeAt_setPos _ _ _ hcurlt, ← hT1]
    obtain ⟨h1, h2, _, _, _, _, _, _⟩ :=
      write_cur_spec ⟨hne, hcuridx, hall⟩ ((vs.map (enc w)).flatten)
        (hT1.trans (by rw [storeValues_eq, hflatlen]))
        (by rw [hflatlen]; omega)
        (enc_flatten_bytes_lt vs w)
    exact ⟨h1, h2⟩

theorem writeValues_spec : ∀ (ops : List (List Nat)) (w : Nat) (s : ByteStream),
    wfOut s →
    wfOut (writeValues w ops s) ∧
    (writeValues w ops s).flatten
      = s.flatten ++ (ops.map (fun vs => (vs.map (enc w)).flatten)).flatten := by
  intro ops
  induction ops with
  | nil =>
    intro w s hwf
    exact ⟨hwf, by simp [writeValues]⟩
  | cons o os ih =>
    intro w s hwf
    obtain ⟨h1, h2⟩ := append_spec w o hwf
    obtain ⟨h3, h4⟩ := ih w (s.append w o) h1
    refine ⟨?_, ?_⟩
    · show wfOut (writeValues w os (s.append w o))
      exact h3
    · show (writeValues w os (s.append w o)).flatten = _
      rw [h4, h2]
      simp [List.append_assoc]

theorem flatten_map_enc (ops : List (List Nat)) (w : Nat) :
    ((ops.flatten).map (enc w)).flatten
      = (ops.map (fun vs => (vs.map (enc w)).flatten)).flatten := by
  induction ops with
  | nil => simp
  | cons o os ih =>
    simp only [List.flatten_cons, List.map_cons, List.map_append,
      List.flatten_append, ih]

theorem freshOutput_wf (n : Nat) :
    wfOut (freshOutput n) ∧ (freshOutput n).flatten = [] := by
  refine ⟨⟨by simp [freshOutput, ByteStream.startWrite, ByteStream.extend,
    outputStream], rfl, ?_⟩, ?_⟩
  · intro r hr
    simp only [freshOutput, ByteStream.startWrite, ByteStream.extend,
      outputStream, List.nil_append, List.mem_singleton] at hr
    subst hr
    refine ⟨by simp, by simp, ?_⟩
    intro b hb
    rw [List.mem_replicate] at hb
    omega
  · simp [freshOutput, ByteStream.startWrite, ByteStream.extend, outputStream,
      ByteStream.flatten, ByteRange.written]

theorem remaining_zero_pos (s : ByteStream) (hcur : s.current = 0)
    (hpos : ∀ r ∈ s.ranges, r.position = 0) :
    s.remaining = (s.ranges.map ByteRange.contents).flatten := by
  rw [ByteStream.remaining, hcur, List.drop_zero]
  cases hr : s.ranges with
  | nil => rfl
  | cons a l =>
    show a.contents.drop a.position ++ (l.map ByteRange.contents).flatten
      = ((a :: l).map ByteRange.contents).flatten
    rw [hpos a (by rw [hr]; simp), List.drop_zero]
    simp

theorem toInput_spec {s : ByteStream} (hwf : wfOut s) :
    wfInput (toInput s) ∧ (toInput s).remaining = s.flatten := by
  obtain ⟨hne, hcuridx, hall⟩ := hwf
  have hlen : (toInput s).ranges.length = s.ranges.length := by
    simp [toInput, ByteStream.resetInput]
  have hlenpos : 0 < s.ranges.length := by
    cases hr : s.ranges with
    | nil => exact absurd hr hne
    | cons a l => simp
  have hcz : (toInput s).current = 0 := rfl
  have hmem : ∀ r ∈ (toInput s).ranges,
      (∃ x ∈ s.ranges, r = ⟨x.buffer, x.position, 0⟩) := by
    intro r hr
    simp only [toInput, ByteStream.resetInput, List.mem_map] at hr
    obtain ⟨x, hx, rfl⟩ := hr
    exact ⟨x, hx, rfl⟩
  refine ⟨⟨by rw [hcz]; omega, ?_, ?_⟩, ?_⟩
  · intro r hr
    obtain ⟨x, hx, rfl⟩ := hmem r hr
    obtain ⟨hp, hbl, hby⟩ := hall x hx
    exact ⟨by simp; omega, hby⟩
  · -- the cursor of the first range starts at zero
    rcases hr : (toInput s).ranges with _ | ⟨a, l⟩
    · rw [hr] at hlen; simp at hlen; omega
    · have : (toInput s).cur = a := by
        rw [ByteStream.cur]
        show ((toInput s).ranges).getD 0 dfltRange = a
        rw [hr]
        rfl
      rw [this]
      obtain ⟨x, hx, rfl⟩ := hmem a (by rw [hr]; simp)
      simp
  · have hz := remaining_zero_pos (toInput s) rfl (fun r hr => by
      obtain ⟨x, hx, rfl⟩ := hmem r hr
      rfl)
    rw [hz]
    show ((s.ranges.map fun r =>
      ({ buffer := r.buffer, size := r.position, position := 0 } : ByteRange)).map
        ByteRange.contents).flatten = s.flatten
    rw [List.map_map]
    rfl

/-! ### Applying sequences of output operations -/

theorem opContent_length (op : AppendOp) : (opContent op).length = opBytes op := by
  cases op with
  | values w vs => exact enc_flatten_length vs w
  | raw data => rfl

theorem applyOp_spec {s : ByteStream} {op : AppendOp} (hwf : wfOut s)
    (hop : opOk op) :
    wfOut (applyOp s op) ∧ (applyOp s op).flatten = s.flatten ++ opContent op := by
  cases op with
  | values w vs =>
    obtain ⟨h1, h2⟩ := append_spec w vs hwf
    exact ⟨h1, h2⟩
  | raw data =>
    obtain ⟨h1, h2, _, _, _⟩ := appendStringPiece_spec hwf hop
    exact ⟨h1, h2⟩

theorem foldl_applyOp_spec : ∀ (ops : List AppendOp) (s : ByteStream),
    wfOut s → (∀ op ∈ ops, opOk op) →
    wfOut (ops.foldl applyOp s) ∧
    (ops.foldl applyOp s).flatten = s.flatten ++ (ops.map opContent).flatten := by
  intro ops
  induction ops with
  | nil =>
    intro s hwf _
    exact ⟨hwf, by simp⟩
  | cons op ops ih =>
    intro s hwf hops
    obtain ⟨h1, h2⟩ := applyOp_spec hwf (hops op (by simp))
    obtain ⟨h3, h4⟩ := ih (applyOp s op) h1 (fun o ho => hops o (by simp [ho]))
    refine ⟨h3, ?_⟩
    rw [List.foldl_cons, h4, h2]
    simp [List.append_assoc]

/-! ### Claim theorems -/

/-- Claim C1: writing any sequence of fixed-width primitive values to a
fresh output stream via `append`/`appendOne` (with an initial range small
enough that the stream extends at least once) and reading them back in order
with `read<T>` yields exactly the original values, including values whose
bytes straddle two ranges: the byte-wise little-endian slow path of
`read<T>` produces the same value the contiguous fast path would. -/
theorem C1_append_read_round_trip (w initialSize : Nat) (ops : List (List Nat))
    (hw8 : w ≤ 8)
    (hvals : ∀ vs ∈ ops, ∀ v ∈ vs, v < 256 ^ w)
    (hext : 2 ≤ (writeValues w ops (freshOutput initialSize)).ranges.length) :
    ((toInput (writeValues w ops (freshOutput initialSize))).readAll w
      (ops.flatten).length).toOption.map Prod.fst = some ops.flatten := by
  obtain ⟨hwf0, hflat0⟩ := freshOutput_wf initialSize
  obtain ⟨hwf1, hflat1⟩ := writeValues_spec ops w _ hwf0
  obtain ⟨hwfin, hremin⟩ := toInput_spec hwf1
  have hrem : (toInput (writeValues w ops (freshOutput initialSize))).remaining
      = ((ops.flatten).map (enc w)).flatten ++ [] := by
    rw [hremin, hflat1, hflat0, flatten_map_enc]
    simp
  have hv : ∀ v ∈ ops.flatten, v < 256 ^ w := by
    intro v hvm
    rw [List.mem_flatten] at hvm
    obtain ⟨l, hl, hvl⟩ := hvm
    exact hvals l hl v hvl
  obtain ⟨s1, hrun, _, _⟩ := readAll_spec (ops.flatten) w _ [] hwfin hrem hv
  rw [hrun]
  rfl

/-- Witness for C1: the spec's own example — the 4-byte value `0x11223344`
written when only 2 bytes remain forces an extension, and reading it back
through the straddling path returns it unchanged. -/
theorem C1_append_read_round_trip_witness :
    ((toInput (writeValues 4 [[287454020]] (freshOutput 2))).readAll 4
      1).toOption.map Prod.fst = some [287454020] := by
  have h := C1_append_read_round_trip 4 2 [[287454020]] (by omega) (by decide)
    (by decide)
  simpa using h

/-- Claim C7 (amended form proved below states exactly the claim): for every
output stream built by a sequence of append operations on a fresh stream,
`size()` — the sum of `position` over all ranges — equals the total number
of logical bytes appended, regardless of how many range extensions
occurred. -/
theorem C7_size_counts_appended_bytes (initialSize : Nat) (ops : List AppendOp)
    (hops : ∀ op ∈ ops, opOk op) :
    (ops.foldl applyOp (freshOutput initialSize)).size
      = (ops.map opBytes).sum := by
  obtain ⟨hwf0, hflat0⟩ := freshOutput_wf initialSize
  obtain ⟨hwf1, hflat1⟩ := foldl_applyOp_spec ops _ hwf0 hops
  have hple : ∀ r ∈ (ops.foldl applyOp (freshOutput initialSize)).ranges,
      r.position ≤ r.buffer.length := by
    intro r hr
    obtain ⟨_, _, hall⟩ := hwf1
    obtain ⟨h1, h2, _⟩ := hall r hr
    omega
  rw [size_eq_flatten_length hple, hflat1, hflat0, List.nil_append,
    List.length_flatten, List.map_map]
  congr 1
  apply List.map_congr_left
  intro op _
  exact opContent_length op

/-- Witness for C7: a typed append that extends once plus a raw append give
`size() = 4 + 3`. -/
theorem C7_size_counts_appended_bytes_witness :
    ([AppendOp.values 4 [287454020], AppendOp.raw [7, 8, 9]].foldl applyOp
      (freshOutput 2)).size = ([AppendOp.values 4 [287454020],
        AppendOp.raw [7, 8, 9]].map opBytes).sum :=
  C7_size_counts_appended_bytes 2 _ (by decide)

theorem appendSPRequestsGo_pos : ∀ (fuel : Nat) (s : ByteStream)
    (data : List Nat) (offset : Nat), offset ≤ data.length →
    ∀ e ∈ ByteStream.appendSPRequestsGo fuel s data offset, 0 < e := by
  intro fuel
  induction fuel with
  | zero =>
    intro s data offset _ e he
    simp [ByteStream.appendSPRequestsGo] at he
  | succ fuel ih =>
    intro s data offset hoff e he
    by_cases hdone : offset + min (data.length - offset)
        (s.cur.size - s.cur.position) = data.length
    · simp only [ByteStream.appendSPRequestsGo, hdone, if_pos] at he
      simp at he
    · simp only [ByteStream.appendSPRequestsGo, hdone, if_false, ite_false,
        List.mem_cons] at he
      have hlt : offset + min (data.length - offset)
          (s.cur.size - s.cur.position) < data.length := by
        have := Nat.min_le_left (data.length - offset) (s.cur.size - s.cur.position)
        omega
      rcases he with he | he
      · subst he
        exact roundUp_pos (by rw [kPageSize]; omega) (by omega)
      · exact ih _ data _ (by omega) e he

/-- Claim C9: the raw-byte append loop copies all requested bytes, extending
as needed (progress on every iteration: since each extension is at least as
large as the outstanding remainder, the loop finishes at most one iteration
after the first extension), never requests a zero-size extension from the
arena, and terminates exactly when the outstanding count reaches zero —
`size()` grows by exactly the requested byte count and the written bytes by
exactly the payload. -/
theorem C9_appendStringPiece_progress (s : ByteStream) (data : List Nat)
    (hwf : wfOut s) (hdata : ∀ b ∈ data, b < 256) :
    (s.appendStringPiece data).size = s.size + data.length ∧
    (s.appendStringPiece data).flatten = s.flatten ++ data ∧
    ∀ e ∈ s.appendSPRequests data, 0 < e := by
  obtain ⟨hwf1, hflat1, _, _, _⟩ := appendStringPiece_spec hwf hdata
  have hple : ∀ r ∈ (s.appendStringPiece data).ranges,
      r.position ≤ r.buffer.length := by
    intro r hr
    obtain ⟨_, _, hall⟩ := hwf1
    obtain ⟨h1, h2, _⟩ := hall r hr
    omega
  have hple0 : ∀ r ∈ s.ranges, r.position ≤ r.buffer.length := by
    intro r hr
    obtain ⟨_, _, hall⟩ := hwf
    obtain ⟨h1, h2, _⟩ := hall r hr
    omega
  refine ⟨?_, hflat1, ?_⟩
  · rw [size_eq_flatten_length hple, size_eq_flatten_length hple0, hflat1]
    simp
  · exact appendSPRequestsGo_pos (data.length + 2) s data 0 (by omega)

/-- Witness for C9: appending 3 bytes to a fresh 2-byte range extends once
(by a full page) and copies all three bytes. -/
theorem C9_appendStringPiece_progress_witness :
    ((freshOutput 2).appendStringPiece [7, 8, 9]).size
        = (freshOutput 2).size + 3 ∧
    ((freshOutput 2).appendStringPiece [7, 8, 9]).flatten
        = (freshOutput 2).flatten ++ [7, 8, 9] ∧
    ∀ e ∈ (freshOutput 2).appendSPRequests [7, 8, 9], 0 < e :=
  C9_appendStringPiece_progress (freshOutput 2) [7, 8, 9] (by decide) (by decide)

/-- Claim C4: when the current range is the last one, `next(true)` raises
the end-of-stream failure leaving the stream (in particular the current
range and its position) unchanged — the raise happens before any mutation —
and `next(false)` is a no-op returning the stream unchanged; when the
current range is not the last, `next` advances `current_` to the following
range and resets that range's position to 0. -/
theorem C4_next_end_behaviour (s : ByteStream) (h : s.current < s.ranges.length) :
    (s.current = s.ranges.length - 1 →
      s.next true = .error .endOfStream ∧ s.next false = .ok s) ∧
    (s.current + 1 < s.ranges.length →
      ∀ b, ∃ s2, s.next b = .ok s2 ∧ s2.current = s.current + 1 ∧
        s2.cur.position = 0 ∧ s2.ranges.length = s.ranges.length) := by
  have hnnil : ¬s.ranges = [] := by
    intro hnil
    rw [hnil] at h
    simp at h
  constructor
  · intro hlast
    constructor
    · simp [ByteStream.next, h, hlast, hnnil]
    · simp [ByteStream.next, h, hlast, hnnil]
  · intro hnl b
    have hne : s.current ≠ s.ranges.length - 1 := by omega
    refine ⟨{ s.setPos (s.current + 1) 0 with current := s.current + 1 },
      by simp [ByteStream.next, h, hne], rfl, ?_, by simp [ranges_length_setPos]⟩
    show ((s.setPos (s.current + 1) 0).ranges.getD (s.current + 1) dfltRange).position = 0
    rw [show (s.setPos (s.current + 1) 0).ranges = s.ranges.set (s.current + 1)
      { s.ranges.getD (s.current + 1) dfltRange with position := 0 } from rfl]
    rw [getD_set_self (by omega)]

/-- Witness for C4 at a one-range stream: the end-of-stream case is
exercised, the advance case is vacuous. -/
theorem C4_next_end_behaviour_witness :
    ((inputStream.resetInput [⟨[7], 1, 0⟩]).current
        = (inputStream.resetInput [⟨[7], 1, 0⟩]).ranges.length - 1 →
      (inputStream.resetInput [⟨[7], 1, 0⟩]).next true = .error .endOfStream ∧
      (inputStream.resetInput [⟨[7], 1, 0⟩]).next false
        = .ok (inputStream.resetInput [⟨[7], 1, 0⟩])) ∧
    ((inputStream.resetInput [⟨[7], 1, 0⟩]).current + 1
        < (inputStream.resetInput [⟨[7], 1, 0⟩]).ranges.length →
      ∀ b, ∃ s2, (inputStream.resetInput [⟨[7], 1, 0⟩]).next b = .ok s2 ∧
        s2.current = (inputStream.resetInput [⟨[7], 1, 0⟩]).current + 1 ∧
        s2.cur.position = 0 ∧
        s2.ranges.length = (inputStream.resetInput [⟨[7], 1, 0⟩]).ranges.length) :=
  C4_next_end_behaviour (inputStream.resetInput [⟨[7], 1, 0⟩]) (by decide)

/-- Claim C5: for an input stream whose current index is valid and whose
cursor is within the current range, `atEnd()` returns (without failing)
true exactly when the current range is fully consumed and is the last
range; at every earlier position it returns false. -/
theorem C5_atEnd_iff (s : ByteStream) (h1 : s.current < s.ranges.length)
    (h2 : s.cur.position ≤ s.cur.size) :
    s.atEnd = .ok (decide (s.cur.position = s.cur.size ∧
      s.current = s.ranges.length - 1)) := by
  rw [ByteStream.atEnd]
  by_cases hlt : s.cur.position < s.cur.size
  · rw [if_pos hlt]
    have hno : ¬(s.cur.position = s.cur.size ∧ s.current = s.ranges.length - 1) := by
      intro hc
      omega
    simp [hno]
  · rw [if_neg hlt, if_pos h1]
    have heq : s.cur.position = s.cur.size := by omega
    congr 1
    rw [decide_eq_decide]
    constructor
    · intro hc
      exact ⟨heq, hc⟩
    · intro hc
      exact hc.2

/-- Witness for C5 at a partially consumed two-range stream: `atEnd` is
false with one unread byte left in the first range. -/
theorem C5_atEnd_iff_witness :
    (inputStream.resetInput [⟨[7, 8], 2, 1⟩, ⟨[9], 1, 0⟩]).atEnd
      = .ok (decide ((inputStream.resetInput [⟨[7, 8], 2, 1⟩, ⟨[9], 1, 0⟩]).cur.position
          = (inputStream.resetInput [⟨[7, 8], 2, 1⟩, ⟨[9], 1, 0⟩]).cur.size ∧
        (inputStream.resetInput [⟨[7, 8], 2, 1⟩, ⟨[9], 1, 0⟩]).current
          = (inputStream.resetInput [⟨[7, 8], 2, 1⟩, ⟨[9], 1, 0⟩]).ranges.length - 1)) :=
  C5_atEnd_iff _ (by decide) (by decide)

theorem readBytesGo_overrun : ∀ (fuel : Nat) (s : ByteStream) (size : Nat)
    (acc : List Nat), wfInput s → s.remaining.length < size →
    s.ranges.length - s.current ≤ fuel →
    ∃ s1, ByteStream.readBytesGo fuel s size acc
        = (acc ++ s.remaining, s1, some .endOfStream) ∧
      s1.current = s1.ranges.length - 1 ∧ s1.cur.position = s1.cur.size ∧
      s1.remaining = [] ∧ s1.ranges.length = s.ranges.length := by
  intro fuel
  induction fuel with
  | zero =>
    intro s size acc hwf hlt hfuel
    obtain ⟨h1, _, _⟩ := hwf
    omega
  | succ fuel ih =>
    intro s size acc hwf hlt hfuel
    obtain ⟨h1, h2, h3⟩ := hwf
    have hbuf : s.cur.size ≤ s.cur.buffer.length := (h2 s.cur (cur_mem_ranges h1)).1
    have hremlen : s.remaining.length
        = (s.cur.size - s.cur.position)
          + (((s.ranges.drop (s.current + 1)).map ByteRange.contents).flatten).length := by
      rw [remaining_eq s h1, List.length_append, List.length_drop,
        contents_length hbuf]
    have havail : s.cur.size - s.cur.position ≤ s.remaining.length := by omega
    have hnum : min (s.cur.size - s.cur.position) size
        = s.cur.size - s.cur.position := Nat.min_eq_left (by omega)
    have hslice : (s.cur.buffer.drop s.cur.position).take
        (s.cur.size - s.cur.position) = s.cur.contents.drop s.cur.position := by
      rw [ByteRange.contents, List.drop_take]
    have hnz : ¬(size - (s.cur.size - s.cur.position) = 0) := by omega
    -- the state after consuming the rest of the current range
    have hposeq : s.cur.position + (s.cur.size - s.cur.position) = s.cur.size := by
      omega
    obtain ⟨S2, hS2⟩ : ∃ t : ByteStream,
        t = s.setPos s.current (s.cur.position + (s.cur.size - s.cur.position)) :=
      ⟨_, rfl⟩
    have hS2len : S2.ranges.length = s.ranges.length := by
      rw [hS2]; exact ranges_length_setPos ..
    have hS2cur : S2.current = s.current := by rw [hS2]; rfl
    have hS2curval : S2.cur = { s.cur with position := s.cur.size } := by
      rw [hS2, hposeq]
      exact cur_setPos_current s _ h1
    have hS2wf : wfInput S2 := by
      rw [hS2, hposeq]
      exact wfInput_setPos_current ⟨h1, h2, h3⟩ (by omega)
    have hS2rem : S2.remaining
        = ((s.ranges.drop (s.current + 1)).map ByteRange.contents).flatten := by
      have hl : S2.current < S2.ranges.length := by omega
      rw [remaining_eq S2 hl, hS2curval]
      have hdropc : S2.ranges.drop (S2.current + 1) = s.ranges.drop (s.current + 1) := by
        rw [hS2, hposeq]
        exact ranges_drop_setPos_current s _
      rw [hdropc]
      have hnil : ({ s.cur with position := s.cur.size } : ByteRange).contents.drop
          (({ s.cur with position := s.cur.size } : ByteRange).position) = [] := by
        apply List.drop_eq_nil_of_le
        show s.cur.contents.length ≤ s.cur.size
        rw [contents_length hbuf]
      rw [hnil, List.nil_append]
    have hacc : acc ++ (s.cur.buffer.drop s.cur.position).take
        (min (s.cur.size - s.cur.position) size)
        ++ ((s.ranges.drop (s.current + 1)).map ByteRange.contents).flatten
        = acc ++ s.remaining := by
      rw [hnum, hslice, remaining_eq s h1, List.append_assoc]
    by_cases hlast : s.current = s.ranges.length - 1
    · -- the ranges are exhausted: next throws with the state fully advanced
      have hnext : S2.next true = .error .endOfStream := by
        rw [ByteStream.next, if_pos (by omega), if_pos (by omega)]
        rfl
      have hrem2 : ((s.ranges.drop (s.current + 1)).map ByteRange.contents).flatten
          = [] := by
        rw [show s.ranges.drop (s.current + 1) = [] from
          List.drop_eq_nil_of_le (by omega)]
        rfl
      have hS2f : s.setPos s.current s.cur.size = S2 := by
        rw [hS2, hposeq]
      have haccf : acc ++ (s.cur.buffer.drop s.cur.position).take
          (s.cur.size - s.cur.position) = acc ++ s.remaining := by
        rw [hslice, remaining_eq s h1, hrem2, List.append_nil]
      refine ⟨S2, ?_, by omega, by rw [hS2curval], ?_, by omega⟩
      · show ByteStream.readBytesGo (fuel + 1) s size acc = _
        rw [ByteStream.readBytesGo]
        simp only [hnum, hposeq, hS2f, hnz, if_false, ite_false, hnext, haccf]
      · rw [hS2rem, hrem2]
    · -- advance to the next range and keep copying
      have hnext : S2.next true
          = .ok { S2.setPos (S2.current + 1) 0 with current := S2.current + 1 } :=
        next_ok_of_not_last (by omega) (by omega) true
      obtain ⟨S3, hS3⟩ : ∃ t : ByteStream,
          t = { S2.setPos (S2.current + 1) 0 with current := S2.current + 1 } :=
        ⟨_, rfl⟩
      have hS3len : S3.ranges.length = s.ranges.length := by
        rw [hS3]
        show (S2.setPos (S2.current + 1) 0).ranges.length = _
        rw [ranges_length_setPos]
        omega
      have hS3cur : S3.current = s.current + 1 := by
        rw [hS3]
        show S2.current + 1 = s.current + 1
        rw [hS2cur]
      have hc2lt : s.current + 1 < s.ranges.length := by omega
      have hgd21 : S2.ranges.getD (s.current + 1) dfltRange
          = s.ranges.getD (s.current + 1) dfltRange := by
        rw [hS2]
        show (s.ranges.set s.current _).getD (s.current + 1) dfltRange = _
        rw [getD_set_ne (by omega)]
      have hS3ranges : S3.ranges = S2.ranges.set (S2.current + 1)
          { S2.ranges.getD (S2.current + 1) dfltRange with position := 0 } := by
        rw [hS3]
        rfl
      have hS3curval : S3.cur
          = { s.ranges.getD (s.current + 1) dfltRange with position := 0 } := by
        rw [ByteStream.cur, hS3cur, hS3ranges, hS2cur, getD_set_self (by omega),
          hgd21]
      have hmem21 : s.ranges.getD (s.current + 1) dfltRange ∈ s.ranges := by
        rw [getD_eq_getElem hc2lt]
        exact List.getElem_mem hc2lt
      have hS3wf : wfInput S3 := by
        refine ⟨by omega, ?_, ?_⟩
        · intro r hr
          rw [hS3ranges, hS2cur] at hr
          rcases List.mem_or_eq_of_mem_set hr with hmem | heq
          · rw [hS2] at hmem
            rcases List.mem_or_eq_of_mem_set hmem with hmem2 | heq2
            · exact h2 r hmem2
            · subst heq2
              exact h2 s.cur (cur_mem_ranges h1)
          · subst heq
            rw [hgd21]
            exact ⟨(h2 _ hmem21).1, (h2 _ hmem21).2⟩
        · rw [hS3curval]
          exact Nat.zero_le _
      have hS3rem : S3.remaining = S2.remaining := by
        have hl3 : S3.current < S3.ranges.length := by omega
        rw [remaining_eq S3 hl3, hS3curval, hS3cur]
        have hdrop3 : S3.ranges.drop (s.current + 1 + 1)
            = s.ranges.drop (s.current + 2) := by
          rw [hS3ranges, hS2cur, List.drop_set, if_pos (by omega), hS2]
          show (s.ranges.set s.current _).drop (s.current + 2) = _
          rw [List.drop_set, if_pos (by omega)]
        rw [hdrop3, hS2rem]
        have hsplit : s.ranges.drop (s.current + 1) =
            s.ranges[s.current + 1] :: s.ranges.drop (s.current + 2) :=
          List.drop_eq_getElem_cons hc2lt
        rw [hsplit, List.map_cons, List.flatten_cons]
        have hcc : ({ s.ranges.getD (s.current + 1) dfltRange with position := 0 }
            : ByteRange).contents = s.ranges[s.current + 1].contents := by
          rw [getD_eq_getElem hc2lt]
          rfl
        rw [hcc, List.drop_zero]
      have hS3lt : S3.remaining.length < size - (s.cur.size - s.cur.position) := by
        rw [hS3rem, hS2rem]
        omega
      obtain ⟨s1, hrun3, hp1, hp2, hp3, hp4⟩ :=
        ih S3 (size - (s.cur.size - s.cur.position))
          (acc ++ (s.cur.buffer.drop s.cur.position).take
            (s.cur.size - s.cur.position))
          hS3wf hS3lt (by omega)
      refine ⟨s1, ?_, hp1, hp2, hp3, by omega⟩
      show ByteStream.readBytesGo (fuel + 1) s size acc = _
      have hS2f : s.setPos s.current s.cur.size = S2 := by
        rw [hS2, hposeq]
      rw [ByteStream.readBytesGo]
      simp only [hnum, hposeq, hS2f, hnz, if_false, ite_false, hnext, ← hS3]
      rw [hrun3, hS3rem, hS2rem, hslice, remaining_eq s h1, List.append_assoc]

/-- Claim C10: a `readBytes` call requesting more bytes than remain first
copies every remaining byte into the destination and advances the stream to
its end, and only then raises the end-of-stream failure: on failure both the
destination and the stream state keep the partial mutation (`readBytes` is
not atomic on failure). -/
theorem C10_readBytes_not_atomic (s : ByteStream) (size : Nat)
    (hwf : wfInput s) (hlt : s.remaining.length < size) :
    (s.readBytes size).1 = s.remaining ∧
    (s.readBytes size).2.2 = some .endOfStream ∧
    (s.readBytes size).2.1.current = (s.readBytes size).2.1.ranges.length - 1 ∧
    (s.readBytes size).2.1.cur.position = (s.readBytes size).2.1.cur.size ∧
    (s.readBytes size).2.1.remaining = [] := by
  obtain ⟨s1, hrun, hp1, hp2, hp3, _⟩ :=
    readBytesGo_overrun (s.ranges.length + 1) s size [] hwf hlt (by omega)
  rw [ByteStream.readBytes, hrun]
  exact ⟨by simp, rfl, hp1, hp2, hp3⟩

/-- Witness for C10: reading 5 bytes from a two-byte stream copies both
bytes, leaves the stream at its end and reports the end-of-stream error. -/
theorem C10_readBytes_not_atomic_witness :
    ((inputStream.resetInput [⟨[7, 8], 2, 0⟩]).readBytes 5).1
        = (inputStream.resetInput [⟨[7, 8], 2, 0⟩]).remaining ∧
    ((inputStream.resetInput [⟨[7, 8], 2, 0⟩]).readBytes 5).2.2
        = some .endOfStream ∧
    ((inputStream.resetInput [⟨[7, 8], 2, 0⟩]).readBytes 5).2.1.current
        = ((inputStream.resetInput [⟨[7, 8], 2, 0⟩]).readBytes 5).2.1.ranges.length - 1 ∧
    ((inputStream.resetInput [⟨[7, 8], 2, 0⟩]).readBytes 5).2.1.cur.position
        = ((inputStream.resetInput [⟨[7, 8], 2, 0⟩]).readBytes 5).2.1.cur.size ∧
    ((inputStream.resetInput [⟨[7, 8], 2, 0⟩]).readBytes 5).2.1.remaining = [] :=
  C10_readBytes_not_atomic (inputStream.resetInput [⟨[7, 8], 2, 0⟩]) 5
    (by decide) (by decide)

/-- Claim C6 (amended): for every input stream with non-degenerate ranges
(every range non-empty) and every request `k ≥ 1`, `nextView k` succeeds and
returns a view that is a contiguous slice of a single range, never longer
than `k` (of length `min(k, bytes remaining in the current range)` when the
current range has unread bytes), auto-advancing at most once, and the view is
empty exactly when no data remains (current range exhausted and no further
range exists).  The original claim fails at `k = 0`: see the
counterexample. -/
theorem C6_nextView_bounds (s : ByteStream) (k : Nat)
    (h1 : s.current < s.ranges.length)
    (h2 : ∀ r ∈ s.ranges, r.size ≤ r.buffer.length ∧ 0 < r.size)
    (h3 : s.cur.position ≤ s.cur.size)
    (hk : 1 ≤ k) :
    ∃ v s1, s.nextView k = .ok (v, s1) ∧
      v.length ≤ k ∧
      (s1.current = s.current ∨ s1.current = s.current + 1) ∧
      (v = [] ↔ (s.cur.position = s.cur.size ∧ s.current = s.ranges.length - 1)) ∧
      (s.cur.position < s.cur.size →
        v.length = min (s.cur.size - s.cur.position) k) ∧
      (∃ p, p + v.length ≤ s1.cur.size ∧
        v = (s1.cur.buffer.drop p).take v.length) := by
  have hcurb := h2 s.cur (cur_mem_ranges h1)
  by_cases hex : s.cur.position = s.cur.size
  · by_cases hlast : s.current = s.ranges.length - 1
    · -- exhausted last range: the empty view, no failure
      refine ⟨[], s, ?_, by simp, Or.inl rfl, by simp [hex, hlast], ?_, 0, ?_, ?_⟩
      · rw [ByteStream.nextView, if_pos hex, if_pos hlast]
      · intro hc
        omega
      · simp
      · simp
    · -- exhausted non-last range: advance once, then a non-empty view
      have hc2lt : s.current + 1 < s.ranges.length := by omega
      have hnext := next_ok_of_not_last h1 hlast true
      obtain ⟨S2, hS2⟩ : ∃ t : ByteStream,
          t = { s.setPos (s.current + 1) 0 with current := s.current + 1 } :=
        ⟨_, rfl⟩
      have hS2cur : S2.current = s.current + 1 := by rw [hS2]
      have hS2curval : S2.cur
          = { s.ranges.getD (s.current + 1) dfltRange with position := 0 } := by
        rw [ByteStream.cur, hS2]
        show ((s.setPos (s.current + 1) 0).ranges).getD (s.current + 1) dfltRange = _
        rw [show (s.setPos (s.current + 1) 0).ranges = s.ranges.set (s.current + 1)
          { s.ranges.getD (s.current + 1) dfltRange with position := 0 } from rfl]
        rw [getD_set_self (by omega)]
      have hmem21 : s.ranges.getD (s.current + 1) dfltRange ∈ s.ranges := by
        rw [getD_eq_getElem hc2lt]
        exact List.getElem_mem hc2lt
      have hb21 := h2 _ hmem21
      have hsz2 : 0 < S2.cur.size := by rw [hS2curval]; exact hb21.2
      have hbl2 : S2.cur.size ≤ S2.cur.buffer.length := by
        rw [hS2curval]; exact hb21.1
      have hpos2 : S2.cur.position = 0 := by rw [hS2curval]
      have hnz2 : ¬S2.cur.size = 0 := by omega
      have hview : min (S2.cur.size - S2.cur.position) k = min (S2.cur.size) k := by
        omega
      have hvlen : ((S2.cur.buffer.drop S2.cur.position).take
          (min (S2.cur.size - S2.cur.position) k)).length
          = min (S2.cur.size) k := by
        rw [List.length_take, List.length_drop]
        omega
      have hS2lt : S2.current < S2.ranges.length := by
        rw [hS2cur, hS2]
        show s.current + 1 < (s.setPos (s.current + 1) 0).ranges.length
        rw [ranges_length_setPos]
        omega
      refine ⟨(S2.cur.buffer.drop S2.cur.position).take
          (min (S2.cur.size - S2.cur.position) k),
        S2.setPos S2.current (S2.cur.position + min (S2.cur.size - S2.cur.position) k),
        ?_, ?_, ?_, ?_, ?_, ?_⟩
      · rw [ByteStream.nextView, if_pos hex, if_neg hlast, hnext, ← hS2]
        simp only [ByteStream.nextViewTail, hnz2, if_false, ite_false]
      · rw [hvlen]
        exact Nat.min_le_right _ _
      · right
        rw [current_setPos, hS2cur]
      · constructor
        · intro hnil
          have hlen0 : ((S2.cur.buffer.drop S2.cur.position).take
              (min (S2.cur.size - S2.cur.position) k)).length = 0 := by
            rw [hnil]
            rfl
          rw [hvlen] at hlen0
          omega
        · intro hc
          exact absurd hc.2 hlast
      · intro hc
        omega
      · refine ⟨S2.cur.position, ?_, ?_⟩
        · rw [cur_setPos_current S2 _ hS2lt, hvlen]
          show S2.cur.position + min S2.cur.size k ≤ S2.cur.size
          omega
        · rw [cur_setPos_current S2 _ hS2lt, hvlen]
          show (S2.cur.buffer.drop S2.cur.position).take
              (min (S2.cur.size - S2.cur.position) k)
            = (S2.cur.buffer.drop S2.cur.position).take (min S2.cur.size k)
          rw [hview]
  · -- unread bytes in the current range: a view from the cursor
    have hlt : s.cur.position < s.cur.size := by omega
    have hnz0 : ¬s.cur.size = 0 := by omega
    have hvlen : ((s.cur.buffer.drop s.cur.position).take
        (min (s.cur.size - s.cur.position) k)).length
        = min (s.cur.size - s.cur.position) k := by
      rw [List.length_take, List.length_drop]
      omega
    refine ⟨(s.cur.buffer.drop s.cur.position).take
        (min (s.cur.size - s.cur.position) k),
      s.setPos s.current (s.cur.position + min (s.cur.size - s.cur.position) k),
      ?_, ?_, Or.inl (current_setPos ..), ?_, ?_, ?_⟩
    · rw [ByteStream.nextView, if_neg hex]
      simp only [ByteStream.nextViewTail, hnz0, if_false, ite_false]
    · rw [hvlen]
      exact Nat.min_le_right _ _
    · constructor
      · intro hnil
        have hlen0 : ((s.cur.buffer.drop s.cur.position).take
            (min (s.cur.size - s.cur.position) k)).length = 0 := by
          rw [hnil]
          rfl
        rw [hvlen] at hlen0
        omega
      · intro hc
        exact absurd hc.1 (by omega)
    · intro _
      exact hvlen
    · refine ⟨s.cur.position, ?_, ?_⟩
      · rw [cur_setPos_current s _ h1, hvlen]
        show s.cur.position + min (s.cur.size - s.cur.position) k ≤ s.cur.size
        omega
      · rw [cur_setPos_current s _ h1, hvlen]

/-- Witness for C6 at a two-range stream with one unread byte in the first
range and `k = 2`. -/
theorem C6_nextView_bounds_witness :
    ∃ v s1, (inputStream.resetInput [⟨[7, 8], 2, 1⟩, ⟨[9], 1, 0⟩]).nextView 2
        = .ok (v, s1) ∧
      v.length ≤ 2 ∧
      (s1.current = (inputStream.resetInput [⟨[7, 8], 2, 1⟩, ⟨[9], 1, 0⟩]).current ∨
        s1.current = (inputStream.resetInput [⟨[7, 8], 2, 1⟩, ⟨[9], 1, 0⟩]).current + 1) ∧
      (v = [] ↔ ((inputStream.resetInput [⟨[7, 8], 2, 1⟩, ⟨[9], 1, 0⟩]).cur.position
          = (inputStream.resetInput [⟨[7, 8], 2, 1⟩, ⟨[9], 1, 0⟩]).cur.size ∧
        (inputStream.resetInput [⟨[7, 8], 2, 1⟩, ⟨[9], 1, 0⟩]).current
          = (inputStream.resetInput [⟨[7, 8], 2, 1⟩, ⟨[9], 1, 0⟩]).ranges.length - 1)) ∧
      ((inputStream.resetInput [⟨[7, 8], 2, 1⟩, ⟨[9], 1, 0⟩]).cur.position
          < (inputStream.resetInput [⟨[7, 8], 2, 1⟩, ⟨[9], 1, 0⟩]).cur.size →
        v.length = min ((inputStream.resetInput [⟨[7, 8], 2, 1⟩, ⟨[9], 1, 0⟩]).cur.size
          - (inputStream.resetInput [⟨[7, 8], 2, 1⟩, ⟨[9], 1, 0⟩]).cur.position) 2) ∧
      (∃ p, p + v.length ≤ s1.cur.size ∧
        v = (s1.cur.buffer.drop p).take v.length) :=
  C6_nextView_bounds (inputStream.resetInput [⟨[7, 8], 2, 1⟩, ⟨[9], 1, 0⟩]) 2
    (by decide) (by decide) (by decide) (by decide)

/-- Counterexample to C6 as stated: with `k = 0` and data remaining,
`nextView 0` returns a zero-length view even though data remains, so the
view is not zero-length "exactly when no data remains". -/
theorem C6_nextView_zero_counterexample :
    ((inputStream.resetInput [⟨[7, 8], 2, 0⟩]).nextView 0).toOption.map Prod.fst
        = some [] ∧
    (inputStream.resetInput [⟨[7, 8], 2, 0⟩]).remaining ≠ [] := by
  decide

/-- When the outstanding remainder fits into the current range, the
`appendStringPiece` loop finishes in a single iteration, writing in place. -/
theorem appendSPGo_fits (fuel : Nat) (s : ByteStream) (data : List Nat)
    (offset : Nat) (hoff : offset ≤ data.length)
    (hfit : data.length - offset ≤ s.cur.size - s.cur.position) :
    ByteStream.appendSPGo (fuel + 1) s data offset
      = s.setRangeAt s.current
        { s.cur with
          buffer := writeBytesAt s.cur.buffer s.cur.position (data.drop offset),
          position := s.cur.position + (data.length - offset) } := by
  have hmin : min (data.length - offset) (s.cur.size - s.cur.position)
      = data.length - offset := Nat.min_eq_left hfit
  have hdone : offset + min (data.length - offset) (s.cur.size - s.cur.position)
      = data.length := by omega
  have htake : (data.drop offset).take
      (min (data.length - offset) (s.cur.size - s.cur.position))
      = data.drop offset := by
    rw [hmin]
    apply List.take_of_length_le
    rw [List.length_drop]
  have hdone2 : offset + (data.length - offset) = data.length := by omega
  have htake2 : (data.drop offset).take (data.length - offset)
      = data.drop offset := by
    apply List.take_of_length_le
    rw [List.length_drop]
  simp only [ByteStream.appendSPGo, htake, hmin, htake2, hdone2,
    eq_self_iff_true, if_true, ite_true]

/-- The backpatch round trip in the extension-free case: `tellp` captures
the (range identity, offset) pair; an intervening append that fits the
current range's remaining capacity (`hnoext`) adds no range — so in the
source no `ranges_.emplace_back()` runs, no reallocation can occur, and the
raw `ByteRange*` inside the saved C++ `Position` provably stays valid; then
`seekp` restores both components exactly, and a subsequent write at the
restored position that fits the range's remaining capacity overwrites the
previously written bytes in place: the bytes of that range before the
restored offset and beyond the overwritten span are unchanged, and every
other range is unchanged — nothing is displaced.  The hypothesis `hnoext`
is what scopes the statement to the runs the index-based model of
`Position` reflects faithfully; without it the source's behaviour would
hinge on pointer validity across a vector reallocation, which this
embedding does not represent. -/
theorem seekp_backpatch_within_range (s : ByteStream) (data1 data2 : List Nat)
    (hwf : wfOut s) (hd1 : ∀ b ∈ data1, b < 256)
    (hnoext : s.cur.position + data1.length ≤ s.cur.size)
    (hfit : (s.tellp).2 + data2.length ≤ s.cur.size) :
    ((s.appendStringPiece data1).ranges.length = s.ranges.length) ∧
    (((s.appendStringPiece data1).seekp s.tellp).tellp = s.tellp) ∧
    (((s.appendStringPiece data1).seekp s.tellp).appendStringPiece
        data2).ranges.length = (s.appendStringPiece data1).ranges.length ∧
    (∀ j, j ≠ (s.tellp).1 →
      (((s.appendStringPiece data1).seekp s.tellp).appendStringPiece
          data2).ranges.getD j dfltRange
        = (s.appendStringPiece data1).ranges.getD j dfltRange) ∧
    ((((s.appendStringPiece data1).seekp s.tellp).appendStringPiece
        data2).ranges.getD (s.tellp).1 dfltRange).buffer
      = writeBytesAt (((s.appendStringPiece data1).ranges.getD (s.tellp).1
          dfltRange).buffer) (s.tellp).2 data2 ∧
    (((((s.appendStringPiece data1).seekp s.tellp).appendStringPiece
        data2).ranges.getD (s.tellp).1 dfltRange).buffer).take (s.tellp).2
      = (((s.appendStringPiece data1).ranges.getD (s.tellp).1
          dfltRange).buffer).take (s.tellp).2 ∧
    (((((s.appendStringPiece data1).seekp s.tellp).appendStringPiece
        data2).ranges.getD (s.tellp).1 dfltRange).buffer).drop
          ((s.tellp).2 + data2.length)
      = (((s.appendStringPiece data1).ranges.getD (s.tellp).1
          dfltRange).buffer).drop ((s.tellp).2 + data2.length) := by
  obtain ⟨hne, hcuridx, hall⟩ := hwf
  have hcurlt : s.current < s.ranges.length := by
    cases hr : s.ranges with
    | nil => exact absurd hr hne
    | cons a l => rw [hcuridx, hr]; simp
  have htp1 : (s.tellp).1 = s.current := rfl
  have htp2 : (s.tellp).2 = s.cur.position := rfl
  obtain ⟨hwf1, _, hlen1, _, hsz1⟩ := appendStringPiece_spec ⟨hne, hcuridx, hall⟩ hd1
  obtain ⟨S1, hS1⟩ : ∃ t : ByteStream, t = s.appendStringPiece data1 := ⟨_, rfl⟩
  rw [← hS1] at hwf1 hlen1 hsz1
  obtain ⟨hne1, hcur1, hall1⟩ := hwf1
  have hsclt1 : s.current < S1.ranges.length := by omega
  obtain ⟨R, hR⟩ : ∃ t : ByteRange, t = S1.ranges.getD s.current dfltRange :=
    ⟨_, rfl⟩
  have hRmem : R ∈ S1.ranges := by
    rw [hR, getD_eq_getElem hsclt1]
    exact List.getElem_mem hsclt1
  obtain ⟨hRpos, hRbuf, hRbytes⟩ := hall1 R hRmem
  have hRsize : R.size = s.cur.size := by rw [hR]; exact hsz1
  -- the state after seekp
  obtain ⟨S2, hS2⟩ : ∃ t : ByteStream, t = S1.seekp s.tellp := ⟨_, rfl⟩
  have hS2r : S2.ranges = S1.ranges.set s.current
      { S1.ranges.getD s.current dfltRange with position := s.cur.position } := by
    rw [hS2]
    rfl
  have hS2c : S2.current = s.current := by rw [hS2]; rfl
  have hS2cv : S2.cur = { R with position := s.cur.position } := by
    rw [ByteStream.cur, hS2c, hS2r, getD_set_self hsclt1, hR]
  have htellp2 : S2.tellp = s.tellp := by
    rw [ByteStream.tellp, hS2c, hS2cv]
    rfl
  -- the final in-place write
  have hrun : S2.appendStringPiece data2
      = S2.setRangeAt S2.current
        { S2.cur with
          buffer := writeBytesAt S2.cur.buffer S2.cur.position data2,
          position := S2.cur.position + data2.length } := by
    show ByteStream.appendSPGo (data2.length + 1 + 1) S2 data2 0
      = S2.setRangeAt S2.current
        { S2.cur with
          buffer := writeBytesAt S2.cur.buffer S2.cur.position data2,
          position := S2.cur.position + data2.length }
    rw [appendSPGo_fits (data2.length + 1) S2 data2 0 (by omega) (by
      rw [hS2cv]
      show data2.length - 0 ≤ R.size - s.cur.position
      rw [htp2] at hfit
      omega)]
    simp [hS2cv]
  have hfinalr : (S2.appendStringPiece data2).ranges
      = S1.ranges.set s.current
        { R with
          buffer := writeBytesAt R.buffer s.cur.position data2,
          position := s.cur.position + data2.length } := by
    rw [hrun]
    show (S2.ranges.set S2.current _) = _
    rw [hS2c, hS2r, List.set_set, hS2cv]
  have hgetfinal : (S2.appendStringPiece data2).ranges.getD s.current dfltRange
      = { R with
          buffer := writeBytesAt R.buffer s.cur.position data2,
          position := s.cur.position + data2.length } := by
    rw [hfinalr, getD_set_self hsclt1]
  have hwb := writeBytesAt_spec data2 R.buffer s.cur.position (by
    rw [htp2] at hfit
    omega)
  have hnoext_len : (s.appendStringPiece data1).ranges.length
      = s.ranges.length := by
    show (ByteStream.appendSPGo (data1.length + 1 + 1) s data1 0).ranges.length
      = s.ranges.length
    rw [appendSPGo_fits (data1.length + 1) s data1 0 (by omega) (by omega)]
    exact List.length_set ..
  refine ⟨hnoext_len, ?_, ?_, ?_, ?_, ?_, ?_⟩
  · rw [← hS1, ← hS2, htellp2]
  · rw [← hS1, ← hS2, hfinalr]
    exact List.length_set ..
  · intro j hj
    rw [htp1] at hj
    rw [← hS1, ← hS2, hfinalr, getD_set_ne (by omega)]
  · rw [← hS1, ← hS2, htp1, htp2, hgetfinal, ← hR]
  · rw [← hS1, ← hS2, htp1, htp2, hgetfinal, ← hR]
    show (writeBytesAt R.buffer s.cur.position data2).take s.cur.position
      = R.buffer.take s.cur.position
    rw [hwb, List.take_append_eq_append_take, List.take_append_eq_append_take]
    have hl1 : (R.buffer.take s.cur.position).length = s.cur.position := by
      rw [List.length_take]
      rw [htp2] at hfit
      omega
    rw [List.take_take]
    simp [hl1]
  · rw [← hS1, ← hS2, htp1, htp2, hgetfinal, ← hR]
    show (writeBytesAt R.buffer s.cur.position data2).drop
        (s.cur.position + data2.length)
      = R.buffer.drop (s.cur.position + data2.length)
    rw [hwb]
    have hl2 : ((R.buffer.take s.cur.position ++ data2)).length
        = s.cur.position + data2.length := by
      rw [List.length_append, List.length_take]
      rw [htp2] at hfit
      omega
    rw [List.drop_left' hl2]

/-- Concrete instance of the extension-free backpatch round trip: save the
start of a fresh 4-byte range, append one byte (which fits, so no range is
added), seek back and overwrite two bytes in place. -/
theorem seekp_backpatch_within_range_example :
    (((freshOutput 4).appendStringPiece [7]).ranges.length
      = (freshOutput 4).ranges.length) ∧
    ((((freshOutput 4).appendStringPiece [7]).seekp
        (freshOutput 4).tellp).tellp = (freshOutput 4).tellp) ∧
    ((((freshOutput 4).appendStringPiece [7]).seekp
        (freshOutput 4).tellp).appendStringPiece [9, 9]).ranges.length
      = ((freshOutput 4).appendStringPiece [7]).ranges.length ∧
    (∀ j, j ≠ ((freshOutput 4).tellp).1 →
      ((((freshOutput 4).appendStringPiece [7]).seekp
          (freshOutput 4).tellp).appendStringPiece [9, 9]).ranges.getD j dfltRange
        = ((freshOutput 4).appendStringPiece [7]).ranges.getD j dfltRange) ∧
    (((((freshOutput 4).appendStringPiece [7]).seekp
        (freshOutput 4).tellp).appendStringPiece [9, 9]).ranges.getD
          ((freshOutput 4).tellp).1 dfltRange).buffer
      = writeBytesAt ((((freshOutput 4).appendStringPiece [7]).ranges.getD
          ((freshOutput 4).tellp).1 dfltRange).buffer)
          ((freshOutput 4).tellp).2 [9, 9] ∧
    ((((((freshOutput 4).appendStringPiece [7]).seekp
        (freshOutput 4).tellp).appendStringPiece [9, 9]).ranges.getD
          ((freshOutput 4).tellp).1 dfltRange).buffer).take
          ((freshOutput 4).tellp).2
      = ((((freshOutput 4).appendStringPiece [7]).ranges.getD
          ((freshOutput 4).tellp).1 dfltRange).buffer).take
          ((freshOutput 4).tellp).2 ∧
    ((((((freshOutput 4).appendStringPiece [7]).seekp
        (freshOutput 4).tellp).appendStringPiece [9, 9]).ranges.getD
          ((freshOutput 4).tellp).1 dfltRange).buffer).drop
          (((freshOutput 4).tellp).2 + 2)
      = ((((freshOutput 4).appendStringPiece [7]).ranges.getD
          ((freshOutput 4).tellp).1 dfltRange).buffer).drop
          (((freshOutput 4).tellp).2 + 2) :=
  seekp_backpatch_within_range (freshOutput 4) [7] [9, 9] (by decide)
    (by decide) (by decide) (by decide)

/-! ### Bit-append invariants -/

theorem setBit_length (buf : List Nat) (i : Nat) (v : Bool) :
    (setBit buf i v).length = buf.length := by
  rw [setBit]
  exact List.length_set ..

theorem fillBits_length (buf : List Nat) (a b : Nat) (v : Bool) :
    (fillBits buf a b v).length = buf.length := by
  rw [fillBits]
  generalize List.range (b - a) = l
  induction l generalizing buf a with
  | nil => rfl
  | cons x xs ih =>
    rw [List.foldl_cons]
    rw [ih (setBit buf (a + x) v) a]
    exact setBit_length ..

theorem cur_dflt_of_invalid {s : ByteStream} (h : ¬s.current < s.ranges.length) :
    s.cur = dfltRange := by
  rw [ByteStream.cur, List.getD_eq_getElem?_getD, List.getElem?_eq_none (by omega)]
  rfl

theorem appendBoolGo_wfBits : ∀ (fuel : Nat) (s : ByteStream) (v : Bool)
    (count offset : Nat) (s1 : ByteStream), wfBits s →
    ByteStream.appendBoolGo fuel s v count offset = .ok s1 → wfBits s1 := by
  intro fuel
  induction fuel with
  | zero =>
    intro s v count offset s1 _ hrun
    exact absurd hrun (by simp [ByteStream.appendBoolGo])
  | succ fuel ih =>
    intro s v count offset s1 hwf hrun
    have hcurinv : s.cur.position ≤ 8 * s.cur.size ∧
        s.cur.buffer.length = s.cur.size := by
      by_cases hv : s.current < s.ranges.length
      · exact hwf s.cur (cur_mem_ranges hv)
      · rw [cur_dflt_of_invalid hv]
        exact ⟨by simp [dfltRange], by simp [dfltRange]⟩
    have hwf1 : wfBits (s.setRangeAt s.current
        { s.cur with
          buffer := fillBits s.cur.buffer s.cur.position
            (s.cur.position + min (count - offset) (s.cur.size * 8 - s.cur.position)) v,
          position := s.cur.position
            + min (count - offset) (s.cur.size * 8 - s.cur.position) }) := by
      intro r hr
      rcases List.mem_or_eq_of_mem_set hr with hmem | heq
      · exact hwf r hmem
      · subst heq
        refine ⟨?_, ?_⟩
        · show s.cur.position + min (count - offset) (s.cur.size * 8 - s.cur.position)
            ≤ 8 * s.cur.size
          have := Nat.min_le_right (count - offset) (s.cur.size * 8 - s.cur.position)
          omega
        · show (fillBits s.cur.buffer s.cur.position _ v).length = s.cur.size
          rw [fillBits_length]
          exact hcurinv.2
    by_cases hdone : offset + min (count - offset) (s.cur.size * 8 - s.cur.position)
        = count
    · have hs1 : s1 = s.setRangeAt s.current
          { s.cur with
            buffer := fillBits s.cur.buffer s.cur.position
              (s.cur.position + min (count - offset) (s.cur.size * 8 - s.cur.position)) v,
            position := s.cur.position
              + min (count - offset) (s.cur.size * 8 - s.cur.position) } := by
        have := hrun
        simp only [ByteStream.appendBoolGo, hdone, if_pos] at this
        exact (Except.ok.injEq _ _).mp this |>.symm
      rw [hs1]
      exact hwf1
    · have hrun2 : ByteStream.appendBoolGo fuel
          ((s.setRangeAt s.current
            { s.cur with
              buffer := fillBits s.cur.buffer s.cur.position
                (s.cur.position + min (count - offset) (s.cur.size * 8 - s.cur.position)) v,
              position := s.cur.position
                + min (count - offset) (s.cur.size * 8 - s.cur.position) }).extend
            (nbytes (count - (offset + min (count - offset)
              (s.cur.size * 8 - s.cur.position)))))
          v count (offset + min (count - offset) (s.cur.size * 8 - s.cur.position))
          = .ok s1 := by
        have := hrun
        simp only [ByteStream.appendBoolGo, hdone, if_false, ite_false] at this
        exact this
      refine ih _ v count _ s1 ?_ hrun2
      intro r hr
      rcases List.mem_append.mp (by
        have : r ∈ (s.setRangeAt s.current _).ranges ++
            [⟨List.replicate (nbytes (count - (offset + min (count - offset)
              (s.cur.size * 8 - s.cur.position)))) 0,
              nbytes (count - (offset + min (count - offset)
                (s.cur.size * 8 - s.cur.position))), 0⟩] := hr
        exact this) with hmem | hmem
      · exact hwf1 r hmem
      · simp only [List.mem_singleton] at hmem
        subst hmem
        exact ⟨by simp, by simp⟩

/-- Claim C2 (amended): on a bit-addressed stream, each range's `position`
counts bits while `size` counts bytes (the backing buffer holds exactly
`size` bytes); the invariant `0 ≤ position ≤ 8 * size` holds for every range
and every `appendBool` preserves it.  The original claim — `size` and
`position` both in bits with `position ≤ size` — is refuted by the
counterexample below. -/
theorem C2_bit_position_invariant (s : ByteStream) (v : Bool) (count : Nat)
    (s1 : ByteStream) (hbits : s.isBits = true) (hwf : wfBits s)
    (hok : s.appendBool v count = .ok s1) : wfBits s1 := by
  by_cases hfast : count = 1 ∧ s.cur.size * 8 - s.cur.position ≠ 0
  · have hposlt : s.cur.position < s.cur.size * 8 := by
      have := hfast.2
      omega
    have hcurv : s.current < s.ranges.length := by
      by_contra hv
      rw [cur_dflt_of_invalid hv] at hposlt
      simp [dfltRange] at hposlt
    have hcurinv := hwf s.cur (cur_mem_ranges hcurv)
    have hs1 : s1 = s.setRangeAt s.current
        { s.cur with
          buffer := setBit s.cur.buffer s.cur.position v,
          position := s.cur.position + 1 } := by
      have := hok
      unfold ByteStream.appendBool at this
      rw [if_pos hfast] at this
      exact (Except.ok.injEq _ _).mp this |>.symm
    rw [hs1]
    intro r hr
    rcases List.mem_or_eq_of_mem_set hr with hmem | heq
    · exact hwf r hmem
    · subst heq
      refine ⟨by show s.cur.position + 1 ≤ 8 * s.cur.size; omega, ?_⟩
      show (setBit s.cur.buffer s.cur.position v).length = s.cur.size
      rw [setBit_length]
      exact hcurinv.2
  · have hrun : ByteStream.appendBoolGo (count + 2) s v count 0 = .ok s1 := by
      have := hok
      unfold ByteStream.appendBool at this
      rw [if_neg hfast, if_pos hbits] at this
      exact this
    exact appendBoolGo_wfBits (count + 2) s v count 0 s1 hwf hrun

/-- Witness for C2: appending eight set bits to a fresh one-byte bit range
(`position` ends at 8 with `size = 1`) preserves the amended invariant. -/
theorem C2_bit_position_invariant_witness :
    wfBits { ranges := [⟨[255], 1, 8⟩], current := 0, isBits := true,
             isReverseBitOrder := false, isReversed := false } :=
  C2_bit_position_invariant (freshBitOutput 1) true 8 _ (by decide) (by decide)
    (by decide)

/-- Counterexample to C2 as stated: after `appendBool true 8` on a fresh
one-byte bit-addressed range, the stored fields are `position = 8`,
`size = 1` — `position ≤ size` fails, so `size` cannot be counting bits. -/
theorem C2_bit_units_counterexample :
    ((freshBitOutput 1).appendBool true 8).toOption.map
      (fun s => decide (∀ r ∈ s.ranges, r.position ≤ r.size)) = some false := by
  decide

/-- Claim C3 (amended): on a stream that is not bit-addressed, `appendBool`
fires the programming-error check (`VELOX_DCHECK(isBits_)`) exactly when the
single-bit fast path does not apply, i.e. when `count ≠ 1` or the current
range has no bit headroom; when `count == 1` and headroom exists, the fast
path sets the bit and performs no check at all.  The original claim — that
the check fires on every call — is refuted by the counterexample below. -/
theorem C3_appendBool_check_iff (s : ByteStream) (v : Bool) (count : Nat)
    (hbits : s.isBits = false) :
    s.appendBool v count = .error .checkFailure
      ↔ ¬(count = 1 ∧ s.cur.size * 8 - s.cur.position ≠ 0) := by
  by_cases hguard : count = 1 ∧ s.cur.size * 8 - s.cur.position ≠ 0
  · simp [ByteStream.appendBool, hguard]
  · simp [ByteStream.appendBool, hguard, hbits]

/-- Witness for C3: `appendBool` with `count = 0` on a non-bit-addressed
stream takes the general path and fires the check. -/
theorem C3_appendBool_check_iff_witness :
    (freshOutput 1).appendBool true 0 = .error .checkFailure
      ↔ ¬((0 : Nat) = 1 ∧ (freshOutput 1).cur.size * 8
          - (freshOutput 1).cur.position ≠ 0) :=
  C3_appendBool_check_iff (freshOutput 1) true 0 (by decide)

/-- Counterexample to C3 as stated: a single-bit `appendBool` with headroom
on a non-bit-addressed stream completes without any check firing. -/
theorem C3_no_check_counterexample :
    (freshOutput 1).isBits = false ∧
    ((freshOutput 1).appendBool true 1).toOption.isSome = true := by
  decide

end Velox
